import Mathlib

/-!
Verification of the cert-manage trust-store reconciliation engine.

The definitions below are a shallow embedding of the Go sources:
the whitelist matcher (certs/keep.go), the darwin trust-store backend
(store/darwin.go: List, Backup, Restore, readInstalledCerts,
getCertsWithTrustPolicy, trustSettingsExport, getLatestBackupFile),
and the trust-policy codec (trustItems.toXmlFile, parsePlist,
plist.convertToTrustItems).

Machine integers are Nat; Go byte slices are List Nat with values < 256;
Go pointers that may be nil are Option; fallible Go calls return an
explicit Outcome value distinguishing a returned error from a runtime
panic (nil-pointer dereference or out-of-range index).
-/

/-- Result of a Go computation: a normal value, a returned error value, or a
runtime panic (nil-pointer dereference, out-of-range index). -/
inductive Outcome (α : Type) where
  | ok : α → Outcome α
  | error : String → Outcome α
  | crash : Outcome α
  deriving DecidableEq, Repr

/-- An installed x509 certificate, as far as this engine inspects one: its
signature bytes (used by readInstalledCerts to deduplicate) and its hex
SHA-1 fingerprint.  Modelled from the spec: the fingerprint utility
(tools/_x509.GetHexSHA1Fingerprint) is not under src/; per section 4.1 it is
a deterministic hex digest of the certificate, carried here as a field. -/
structure Certificate where
  signature : List Nat
  sha1Hex : String
  deriving DecidableEq, Repr

/-- Modelled from the spec: tools/_x509.GetHexSHA1Fingerprint is not under
src/; section 4.1 specifies a deterministic hex digest per certificate. -/
def GetHexSHA1Fingerprint (c : Certificate) : String :=
  c.sha1Hex

/-- Modelled from the spec: the whitelist package is not under src/; per
section 3 a WhitelistItem is one entry that recognizes a permitted CA
(by fingerprint, issuer/serial pair, or other attributes), exposed to the
matcher only through its Matches predicate. -/
structure WhitelistItem where
  Matches : Certificate → Bool

/-- One pass of the inner loop of certs.Keep for a single incoming
certificate: Go appends inc once for every whitelist item wh with
inc != nil and wh.Matches(*inc). -/
def keepMatches (inc : Option Certificate) (whitelisted : List WhitelistItem) :
    List (Option Certificate) :=
  match inc with
  | none => []
  | some c => (whitelisted.filter (fun wh => wh.Matches c)).map (fun _ => some c)

/-- certs.Keep (src/certs/keep.go lines 10-21): for each incoming certificate,
for each whitelist item, append the certificate when it is non-nil and the
item matches.  The output concatenates, in input order, one copy of the
certificate per matching item. -/
def Keep (incoming : List (Option Certificate)) (whitelisted : List WhitelistItem) :
    List (Option Certificate) :=
  incoming.foldr (fun inc acc => keepMatches inc whitelisted ++ acc) []

/-- A directory entry of the backup directory, as used by
getLatestBackupFile: its file name and its creation time. -/
structure FileInfo where
  name : String
  modTime : Nat
  deriving DecidableEq, Repr

/-- Insert one FileInfo into a list sorted by ascending modTime. -/
def insertByTime (f : FileInfo) : List FileInfo → List FileInfo
  | [] => [f]
  | g :: rest => if f.modTime ≤ g.modTime then f :: g :: rest else g :: insertByTime f rest

/-- Modelled from the spec: tools/file.SortFileInfos is not under src/;
section 4.5 resolves an empty restore path to the most recently created
backup file, so the sort orders entries by ascending creation time and the
code then takes the last element. -/
def SortFileInfos (fis : List FileInfo) : List FileInfo :=
  fis.foldr insertByTime []

/-- The environment a Restore call runs against: the backup directory path,
the result of reading that directory (none models a ReadDir or user.Current
error), which paths exist on disk (modelled from the spec: tools/file.Exists
is not under src/), and the outcome of the privileged import tool per path
(none = success). -/
structure RestoreEnv where
  backupDir : String
  readDir : Option (List FileInfo)
  fileExists : String → Bool
  importResult : String → Option String

/-- The error outcomes of darwinStore.Restore. -/
inductive RestoreError where
  | noBackupFound
  | restoreFileMissing
  | importFailure : String → RestoreError
  deriving DecidableEq, Repr

/-- getLatestBackupFile (part_000 lines 280-297): read the backup directory,
return empty string on error or when empty, otherwise sort the entries and
join the directory with the name of the last (largest) one. -/
def getLatestBackupFile (env : RestoreEnv) : String :=
  match env.readDir with
  | none => ""
  | some fis =>
    if fis.length = 0 then ""
    else
      match (SortFileInfos fis).getLast? with
      | some latest => env.backupDir ++ "/" ++ latest.name
      | none => ""

/-- darwinStore.Restore (part_000 lines 238-258): an empty path resolves to
the latest backup file (errors ignored); an empty resolved path fails with
the no-backup-found error; a resolved path that does not exist on disk fails
with the restore-file-missing error; otherwise the import tool runs and its
error, if any, is propagated.  The result none means success. -/
def Restore (whereArg : String) (env : RestoreEnv) : Option RestoreError :=
  let w := if whereArg = "" then getLatestBackupFile env else whereArg
  if w = "" then some .noBackupFound
  else if env.fileExists w = false then some .restoreFileMissing
  else (env.importResult w).map .importFailure

/-- The environment a Backup call runs against: whether temp-file creation,
the export tool, the per-user directory lookup, directory creation and the
file copy succeed, plus the temp file name, the backup directory and the
current Unix time. -/
structure BackupEnv where
  tempOk : Bool
  tempName : String
  exportOk : Bool
  dirOk : Bool
  dir : String
  mkdirOk : Bool
  copyOk : Bool
  now : Nat

/-- Observable outcome of Backup: the returned error, whether the temporary
export file is still on disk after Backup returns, and the backup file
created in the per-user directory on success. -/
structure BackupResult where
  err : Option String
  tempFileOnDisk : Bool
  backupFile : Option String
  deriving DecidableEq, Repr

/-- trustSettingsExport (part_000 lines 174-194): create a temp file, then
run the export tool into it.  Returns the file handle (none models a nil
os.File pointer), the returned error, and whether the temp file was created
on disk.  When the export tool fails the temp file exists but the returned
handle is nil. -/
def trustSettingsExport (env : BackupEnv) : Option String × Option String × Bool :=
  if env.tempOk = false then (none, some "TempFile failed", false)
  else if env.exportOk = false then (none, some "export tool failed", true)
  else (some env.tempName, none, true)

/-- darwinStore.Backup (part_000 lines 61-85): export the trust settings to
a temp file, defer its removal only when the returned handle is non-nil,
then copy it under trust-backup-(unix time).xml in the per-user directory.
The deferred removal runs at every return point after it was registered. -/
def Backup (env : BackupEnv) : BackupResult :=
  let tse := trustSettingsExport env
  let fd := tse.1
  let err := tse.2.1
  let created := tse.2.2
  let onDisk := created && !fd.isSome
  match err with
  | some e => { err := some e, tempFileOnDisk := onDisk, backupFile := none }
  | none =>
    if env.dirOk = false then
      { err := some "user.Current failed", tempFileOnDisk := onDisk, backupFile := none }
    else
      let filename := "trust-backup-" ++ toString env.now ++ ".xml"
      let out := env.dir ++ "/" ++ filename
      if env.mkdirOk = false then
        { err := some "MkdirAll failed", tempFileOnDisk := onDisk, backupFile := none }
      else if env.copyOk = false then
        { err := some "CopyFile failed", tempFileOnDisk := onDisk, backupFile := none }
      else
        { err := none, tempFileOnDisk := onDisk, backupFile := some out }


/-- A calendar time at second granularity, the resolution of the plist
date format 2006-01-02T15:04:05Z.  Go time.Time carries more (nanoseconds,
location) but the codec claims compare timestamps at second granularity. -/
structure DateTime where
  year : Nat
  month : Nat
  day : Nat
  hour : Nat
  minute : Nat
  second : Nat
  deriving DecidableEq, Repr

/-- The zero value of Go time.Time: January 1, year 1, 00:00:00 UTC. -/
def zeroTime : DateTime := ⟨1, 1, 1, 0, 0, 0⟩

/-- The decimal digit characters used by zero-padded formatting. -/
def digitChar : Nat → Char
  | 0 => '0' | 1 => '1' | 2 => '2' | 3 => '3' | 4 => '4'
  | 5 => '5' | 6 => '6' | 7 => '7' | 8 => '8' | _ => '9'

/-- Numeric value of a decimal digit character. -/
def digitVal (c : Char) : Option Nat :=
  if 48 ≤ c.toNat && c.toNat ≤ 57 then some (c.toNat - 48) else none

/-- Two-digit zero-padded decimal, as the 01 02 15 04 05 layout fields
print for in-range values. -/
def pad2 (n : Nat) : List Char := [digitChar (n / 10 % 10), digitChar (n % 10)]

/-- Four-digit zero-padded decimal, as the 2006 layout field prints for
years up to 9999. -/
def pad4 (n : Nat) : List Char :=
  [digitChar (n / 1000 % 10), digitChar (n / 100 % 10),
   digitChar (n / 10 % 10), digitChar (n % 10)]

/-- Go time.Time.Format with plistModDateFormat 2006-01-02T15:04:05Z
(modelled from the Go standard library for this fixed layout). -/
def formatPlistDate (t : DateTime) : String :=
  ⟨pad4 t.year ++ '-' :: pad2 t.month ++ '-' :: pad2 t.day ++
   'T' :: pad2 t.hour ++ ':' :: pad2 t.minute ++ ':' :: pad2 t.second ++ ['Z']⟩

/-- Gregorian leap-year rule. -/
def isLeapYear (y : Nat) : Bool := (y % 4 = 0 && y % 100 ≠ 0) || y % 400 = 0

/-- Days in a month, used by date validation during parsing. -/
def daysInMonth (y m : Nat) : Nat :=
  match m with
  | 1 => 31 | 2 => if isLeapYear y then 29 else 28
  | 3 => 31 | 4 => 30 | 5 => 31 | 6 => 30 | 7 => 31 | 8 => 31
  | 9 => 30 | 10 => 31 | 11 => 30 | 12 => 31 | _ => 0

/-- Two decimal digit characters as a number. -/
def read2 (c1 c2 : Char) : Option Nat := do
  let a ← digitVal c1
  let b ← digitVal c2
  some (a * 10 + b)

/-- Four decimal digit characters as a number. -/
def read4 (c1 c2 c3 c4 : Char) : Option Nat := do
  let a ← read2 c1 c2
  let b ← read2 c3 c4
  some (a * 100 + b)

/-- Go time.ParseInLocation with the fixed layout 2006-01-02T15:04:05Z in
UTC (modelled from the Go standard library): exactly twenty characters,
digits at the numeric positions, the literal separators, and in-range
month, day, hour, minute and second values. -/
def parsePlistDate (s : String) : Option DateTime :=
  match s.data with
  | y1 :: y2 :: y3 :: y4 :: w1 :: m1 :: m2 :: w2 :: d1 :: d2 :: w3 ::
    h1 :: h2 :: w4 :: n1 :: n2 :: w5 :: p1 :: p2 :: w6 :: rest =>
    if w1 = '-' && w2 = '-' && w3 = 'T' && w4 = ':' && w5 = ':' &&
        w6 = 'Z' && rest.isEmpty then do
      let y ← read4 y1 y2 y3 y4
      let mo ← read2 m1 m2
      let d ← read2 d1 d2
      let h ← read2 h1 h2
      let mi ← read2 n1 n2
      let sec ← read2 p1 p2
      if 1 ≤ mo && mo ≤ 12 && 1 ≤ d && d ≤ daysInMonth y mo &&
          h ≤ 23 && mi ≤ 59 && sec ≤ 59 then
        some ⟨y, mo, d, h, mi, sec⟩
      else
        none
    else none
  | _ => none

/-- The standard base64 alphabet (RFC 4648), as used by Go
encoding/base64 StdEncoding. -/
def b64Table : List Char :=
  "ABCDEFGHIJKLMNOPQRSTUVWXYZabcdefghijklmnopqrstuvwxyz0123456789+/".data

/-- Character for a six-bit group. -/
def b64Char (n : Nat) : Char := b64Table.getD n 'A'

/-- Index of a character in the base64 alphabet, none when absent. -/
def b64Index (c : Char) : Option Nat :=
  let i := b64Table.indexOf c
  if i < b64Table.length then some i else none

/-- Go base64.StdEncoding.EncodeToString (modelled from the Go standard
library): three bytes per four characters, padded with one or two equals
signs at the end. -/
def base64Encode : List Nat → List Char
  | [] => []
  | [b1] => [b64Char (b1 / 4), b64Char (b1 % 4 * 16), '=', '=']
  | [b1, b2] =>
    [b64Char (b1 / 4), b64Char (b1 % 4 * 16 + b2 / 16), b64Char (b2 % 16 * 4), '=']
  | b1 :: b2 :: b3 :: rest =>
    b64Char (b1 / 4) :: b64Char (b1 % 4 * 16 + b2 / 16) ::
    b64Char (b2 % 16 * 4 + b3 / 64) :: b64Char (b3 % 64) :: base64Encode rest

/-- Go base64.StdEncoding.DecodeString (modelled from the Go standard
library): decodes four-character groups, accepting padding only at the end;
returns the bytes decoded so far together with an ok flag (false models the
returned CorruptInputError, which convertToTrustItems ignores). -/
def base64DecodeGo : List Char → List Nat × Bool
  | [] => ([], true)
  | c1 :: c2 :: c3 :: c4 :: rest =>
    match b64Index c1, b64Index c2 with
    | some s1, some s2 =>
      if c3 = '=' then
        if c4 = '=' && rest.isEmpty then ([s1 * 4 + s2 / 16], true) else ([], false)
      else
        match b64Index c3 with
        | some s3 =>
          if c4 = '=' then
            if rest.isEmpty then
              ([s1 * 4 + s2 / 16, s2 % 16 * 16 + s3 / 4], true)
            else ([], false)
          else
            match b64Index c4 with
            | some s4 =>
              let r := base64DecodeGo rest
              ((s1 * 4 + s2 / 16) :: (s2 % 16 * 16 + s3 / 4) ::
                (s3 % 4 * 64 + s4) :: r.1, r.2)
            | none => ([], false)
        | none => ([], false)
    | _, _ => ([], false)
  | _ => ([], false)

/-- Whether a character survives the regular expression in
convertToTrustItems that deletes everything outside the base64 alphabet. -/
def isB64Alphabet (c : Char) : Bool :=
  ('a' ≤ c && c ≤ 'z') || ('A' ≤ c && c ≤ 'Z') || ('0' ≤ c && c ≤ '9') ||
  c = '+' || c = '/' || c = '='

/-- The whitespace cleanup in convertToTrustItems: first the regular
expression removing every character outside the base64 alphabet, then the
strings.Replacer deleting tabs, newlines, spaces and carriage returns
(a no-op after the first step). -/
def stripForBase64 (s : List Char) : List Char :=
  (s.filter isB64Alphabet).filter
    (fun c => !(c = Char.ofNat 9 || c = Char.ofNat 10 || c = ' ' || c = Char.ofNat 13))


/-- One attribute of a distinguished name: an object identifier and a
string value (the only value kind this codec produces or consumes).
Mirrors Go pkix.AttributeTypeAndValue with Typ for the Go field Type. -/
structure AttributeTypeAndValue where
  Typ : List Nat
  Value : String
  deriving DecidableEq, Repr

/-- Go pkix.RDNSequence: a sequence of relative distinguished name sets. -/
abbrev RDNSequence := List (List AttributeTypeAndValue)

/-- Base-128 groups of a number, big endian; the last group gets the given
flag added, every earlier group gets the continuation bit 128.  The fuel
argument only bounds the recursion: fuel a is always enough since the value
shrinks by a factor of 128 each step, and the fuel-zero arm agrees with the
value-below-128 arm it can only be reached through. -/
def b128core : Nat → Nat → Nat → List Nat
  | 0, a, flag => [a + flag]
  | fuel + 1, a, flag =>
    if a < 128 then [a + flag]
    else b128core fuel (a / 128) 128 ++ [a % 128 + flag]

/-- DER base-128 encoding of one object-identifier arc. -/
def base128 (a : Nat) : List Nat := b128core a a 0

/-- Base-256 digits of a number, big endian, with the same fuel scheme. -/
def b256core : Nat → Nat → List Nat
  | 0, n => [n]
  | fuel + 1, n => if n < 256 then [n] else b256core fuel (n / 256) ++ [n % 256]

/-- Base-256 digits of a number, big endian. -/
def base256 (n : Nat) : List Nat := b256core n n

/-- DER length encoding: one byte below 128, otherwise a count byte with
the high bit set followed by big-endian digits. -/
def encLen (n : Nat) : List Nat :=
  if n < 128 then [n] else (128 + (base256 n).length) :: base256 n

/-- DER object-identifier body: first two arcs combined, then each further
arc in base 128.  Go asn1 rejects identifiers of fewer than two arcs; the
encoder here is only applied to the fixed four-arc identifiers of
pkix.Name, so that error path is collapsed to an empty encoding. -/
def encOID (oid : List Nat) : List Nat :=
  match oid with
  | a :: b :: rest =>
    let body := base128 (40 * a + b) ++ (rest.map base128).flatten
    6 :: (encLen body.length ++ body)
  | _ => []

/-- The character set of an ASN.1 PrintableString, as Go asn1 tests it
before choosing between PrintableString and UTF8String. -/
def isPrintableChar (c : Char) : Bool :=
  ('a' ≤ c && c ≤ 'z') || ('A' ≤ c && c ≤ 'Z') || ('0' ≤ c && c ≤ '9') ||
  c = ' ' || c = Char.ofNat 39 || c = '(' || c = ')' || c = '+' || c = ',' ||
  c = '-' || c = '.' || c = '/' || c = ':' || c = '=' || c = '?'

/-- DER encoding of a string value: PrintableString (tag 19) when every
character is printable, UTF8String (tag 12) otherwise.  String bytes are
the character codes (the ASCII fragment of UTF-8, which is all the
well-formedness conditions below allow). -/
def encString (s : String) : List Nat :=
  let bytes := s.data.map Char.toNat
  if s.data.all isPrintableChar then 19 :: (encLen bytes.length ++ bytes)
  else 12 :: (encLen bytes.length ++ bytes)

/-- DER encoding of one AttributeTypeAndValue: SEQUENCE of identifier and
value. -/
def encATV (atv : AttributeTypeAndValue) : List Nat :=
  let body := encOID atv.Typ ++ encString atv.Value
  48 :: (encLen body.length ++ body)

/-- DER encoding of one relative distinguished name: SET of attributes. -/
def encRDN (rdn : List AttributeTypeAndValue) : List Nat :=
  let body := (rdn.map encATV).flatten
  49 :: (encLen body.length ++ body)

/-- Go asn1.Marshal of a pkix.RDNSequence (modelled from the Go standard
library): SEQUENCE of SET of SEQUENCE, in order. -/
def asn1Marshal (seq : RDNSequence) : List Nat :=
  let body := (seq.map encRDN).flatten
  48 :: (encLen body.length ++ body)

/-- DER length decoding, inverse of encLen; rejects the indefinite form. -/
def decLen : List Nat → Option (Nat × List Nat)
  | [] => none
  | b :: rest =>
    if b < 128 then some (b, rest)
    else
      let k := b - 128
      if k = 0 then none
      else if rest.length < k then none
      else some ((rest.take k).foldl (fun acc d => acc * 256 + d) 0, rest.drop k)

/-- Read one DER element with the given tag byte: returns its body and the
remaining bytes. -/
def readTag (tag : Nat) (bs : List Nat) : Option (List Nat × List Nat) :=
  match bs with
  | [] => none
  | t :: rest =>
    if t = tag then
      match decLen rest with
      | none => none
      | some (n, r2) =>
        if r2.length < n then none else some (r2.take n, r2.drop n)
    else none

/-- Base-128 decoding of one arc, accumulating big-endian groups. -/
def decBase128Aux : List Nat → Nat → Option (Nat × List Nat)
  | [], _ => none
  | b :: rest, acc =>
    if b < 128 then some (acc * 128 + b, rest)
    else decBase128Aux rest (acc * 128 + (b - 128))

/-- Decode the remaining arcs of an object identifier until the body is
exhausted; fuel bounds the recursion by the byte count. -/
def decArcs : Nat → List Nat → Option (List Nat)
  | _, [] => some []
  | 0, _ => none
  | fuel + 1, bs =>
    match decBase128Aux bs 0 with
    | none => none
    | some (v, rest) =>
      match decArcs fuel rest with
      | none => none
      | some more => some (v :: more)

/-- Parse one object-identifier element (tag 6), splitting the first
combined arc as Go parseObjectIdentifier does. -/
def parseOIDElem (bs : List Nat) : Option (List Nat × List Nat) :=
  match readTag 6 bs with
  | none => none
  | some (body, rest) =>
    match decBase128Aux body 0 with
    | none => none
    | some (v, r2) =>
      match decArcs r2.length r2 with
      | none => none
      | some more =>
        some ((if v < 80 then [v / 40, v % 40] else [2, v - 80]) ++ more, rest)

/-- Parse one string element: PrintableString (19) or UTF8String (12),
restricted to ASCII contents as produced by the encoder above. -/
def parseStringElem (bs : List Nat) : Option (String × List Nat) :=
  match bs with
  | [] => none
  | t :: _ =>
    if t = 19 || t = 12 then
      match readTag t bs with
      | none => none
      | some (body, rest) =>
        if body.all (fun b => b < 128) then
          some (⟨body.map Char.ofNat⟩, rest)
        else none
    else none

/-- Parse a list of elements with the given single-element parser until the
bytes are exhausted; fuel bounds the recursion. -/
def parseMany {α : Type} (p : List Nat → Option (α × List Nat)) :
    Nat → List Nat → Option (List α)
  | _, [] => some []
  | 0, _ => none
  | fuel + 1, bs =>
    match p bs with
    | none => none
    | some (a, rest) =>
      match parseMany p fuel rest with
      | none => none
      | some more => some (a :: more)

/-- Parse one AttributeTypeAndValue: SEQUENCE of identifier then value,
with nothing after the value inside the sequence. -/
def parseATV (bs : List Nat) : Option (AttributeTypeAndValue × List Nat) :=
  match readTag 48 bs with
  | none => none
  | some (body, rest) =>
    match parseOIDElem body with
    | none => none
    | some (oid, r2) =>
      match parseStringElem r2 with
      | none => none
      | some (v, r3) => if r3 = [] then some (⟨oid, v⟩, rest) else none

/-- Parse one relative distinguished name: SET of attributes. -/
def parseRDN (bs : List Nat) : Option (List AttributeTypeAndValue × List Nat) :=
  match readTag 49 bs with
  | none => none
  | some (body, rest) =>
    match parseMany parseATV body.length body with
    | none => none
    | some atvs => some (atvs, rest)

/-- Go asn1.Unmarshal into a pkix.RDNSequence (modelled from the Go
standard library): parse the outer SEQUENCE of SETs; bytes after the
sequence are returned as rest, which convertToTrustItems discards, so they
are ignored here. -/
def asn1Unmarshal (bs : List Nat) : Option RDNSequence :=
  match readTag 48 bs with
  | none => none
  | some (body, _) => parseMany parseRDN body.length body

/-- Go pkix.Name (the issuerName field of a trustItem). -/
structure PkixName where
  Country : List String
  Organization : List String
  OrganizationalUnit : List String
  Locality : List String
  Province : List String
  StreetAddress : List String
  PostalCode : List String
  SerialNumber : String
  CommonName : String
  Names : List AttributeTypeAndValue
  ExtraNames : List AttributeTypeAndValue
  deriving DecidableEq, Repr

/-- The zero value of pkix.Name. -/
def emptyName : PkixName := ⟨[], [], [], [], [], [], [], "", "", [], []⟩

def oidCommonName : List Nat := [2, 5, 4, 3]
def oidSerialNumber : List Nat := [2, 5, 4, 5]
def oidCountry : List Nat := [2, 5, 4, 6]
def oidLocality : List Nat := [2, 5, 4, 7]
def oidProvince : List Nat := [2, 5, 4, 8]
def oidStreetAddress : List Nat := [2, 5, 4, 9]
def oidOrganization : List Nat := [2, 5, 4, 10]
def oidOrganizationalUnit : List Nat := [2, 5, 4, 11]
def oidPostalCode : List Nat := [2, 5, 4, 17]

/-- Whether an identifier occurs among the given attributes. -/
def oidInAttributeTypeAndValues (oid : List Nat)
    (atvs : List AttributeTypeAndValue) : Bool :=
  atvs.any (fun atv => atv.Typ == oid)

/-- Go pkix.Name.appendRDNs: skip empty field values and identifiers
already covered by ExtraNames, otherwise append one set holding every
value of the field. -/
def appendRDNs (n : PkixName) (ret : RDNSequence) (values : List String)
    (oid : List Nat) : RDNSequence :=
  if values.isEmpty || oidInAttributeTypeAndValues oid n.ExtraNames then ret
  else ret ++ [values.map (fun v => ⟨oid, v⟩)]

/-- Go pkix.Name.ToRDNSequence (modelled from the Go standard library):
multi-valued fields first, then serial number and common name when
non-empty, then ExtraNames as singleton sets. -/
def ToRDNSequence (n : PkixName) : RDNSequence :=
  let r := appendRDNs n [] n.Country oidCountry
  let r := appendRDNs n r n.Organization oidOrganization
  let r := appendRDNs n r n.OrganizationalUnit oidOrganizationalUnit
  let r := appendRDNs n r n.Locality oidLocality
  let r := appendRDNs n r n.Province oidProvince
  let r := appendRDNs n r n.StreetAddress oidStreetAddress
  let r := appendRDNs n r n.PostalCode oidPostalCode
  let r := if n.SerialNumber.length > 0 then appendRDNs n r [n.SerialNumber] oidSerialNumber else r
  let r := if n.CommonName.length > 0 then appendRDNs n r [n.CommonName] oidCommonName else r
  r ++ n.ExtraNames.map (fun atv => [atv])

/-- One attribute applied to a pkix.Name during FillFromRDNSequence: the
attribute is recorded in Names, and recognized identifiers of the form
2.5.4.x update their field. -/
def fillFromATV (n : PkixName) (atv : AttributeTypeAndValue) : PkixName :=
  let n := { n with Names := n.Names ++ [atv] }
  let t := atv.Typ
  let value := atv.Value
  if t.length = 4 && t.getD 0 99 = 2 && t.getD 1 99 = 5 && t.getD 2 99 = 4 then
    match t.getD 3 99 with
    | 3 => { n with CommonName := value }
    | 5 => { n with SerialNumber := value }
    | 6 => { n with Country := n.Country ++ [value] }
    | 7 => { n with Locality := n.Locality ++ [value] }
    | 8 => { n with Province := n.Province ++ [value] }
    | 9 => { n with StreetAddress := n.StreetAddress ++ [value] }
    | 10 => { n with Organization := n.Organization ++ [value] }
    | 11 => { n with OrganizationalUnit := n.OrganizationalUnit ++ [value] }
    | 17 => { n with PostalCode := n.PostalCode ++ [value] }
    | _ => n
  else n

/-- Go pkix.Name.FillFromRDNSequence (modelled from the Go standard
library), starting from the zero Name as convertToTrustItems does; empty
sets are skipped, every value here is a string. -/
def FillFromRDNSequence (rdns : RDNSequence) : PkixName :=
  rdns.foldl (fun n rdn => if rdn.isEmpty then n else rdn.foldl fillFromATV n)
    emptyName


/-- One trust-policy record (part_000 lines 364-374): fingerprint, issuer
distinguished name, modification time, raw serial-number bytes, and the
optional trust-disposition code (never set by this code, so zero). -/
structure trustItem where
  sha1Fingerprint : String
  issuerName : PkixName
  modDate : DateTime
  serialNumber : List Nat
  kSecTrustSettingsResult : Int
  deriving DecidableEq, Repr

/-- ASCII uppercase of one character, as Go strings.ToUpper acts on the
hexadecimal fingerprints this code feeds it. -/
def asciiUpperChar (c : Char) : Char :=
  match c with
  | 'a' => 'A' | 'b' => 'B' | 'c' => 'C' | 'd' => 'D' | 'e' => 'E' | 'f' => 'F'
  | 'g' => 'G' | 'h' => 'H' | 'i' => 'I' | 'j' => 'J' | 'k' => 'K' | 'l' => 'L'
  | 'm' => 'M' | 'n' => 'N' | 'o' => 'O' | 'p' => 'P' | 'q' => 'Q' | 'r' => 'R'
  | 's' => 'S' | 't' => 'T' | 'u' => 'U' | 'v' => 'V' | 'w' => 'W' | 'x' => 'X'
  | 'y' => 'Y' | 'z' => 'Z' | _ => c

/-- ASCII lowercase of one character, as Go strings.ToLower acts on the
fingerprint keys this code feeds it. -/
def asciiLowerChar (c : Char) : Char :=
  match c with
  | 'A' => 'a' | 'B' => 'b' | 'C' => 'c' | 'D' => 'd' | 'E' => 'e' | 'F' => 'f'
  | 'G' => 'g' | 'H' => 'h' | 'I' => 'i' | 'J' => 'j' | 'K' => 'k' | 'L' => 'l'
  | 'M' => 'm' | 'N' => 'n' | 'O' => 'o' | 'P' => 'p' | 'Q' => 'q' | 'R' => 'r'
  | 'S' => 's' | 'T' => 't' | 'U' => 'u' | 'V' => 'v' | 'W' => 'w' | 'X' => 'x'
  | 'Y' => 'y' | 'Z' => 'z' | _ => c

/-- Go strings.ToUpper restricted to ASCII. -/
def strToUpper (s : String) : String := ⟨s.data.map asciiUpperChar⟩

/-- Go strings.ToLower restricted to ASCII. -/
def strToLower (s : String) : String := ⟨s.data.map asciiLowerChar⟩

/-- The per-item fragment written by trustItems.toXmlFile (part_000 lines
332-355): uppercased fingerprint key, then a dict of issuerName (base64 of
the marshalled RDN sequence), modDate (fixed layout) and serialNumber
(base64 of the raw bytes). -/
def trustItemXml (t : trustItem) : String :=
  "<key>" ++ strToUpper t.sha1Fingerprint ++ "</key>" ++ "<dict>" ++
  "<key>issuerName</key><data>" ++
    (⟨base64Encode (asn1Marshal (ToRDNSequence t.issuerName))⟩ : String) ++
  "</data>" ++
  "<key>modDate</key><date>" ++ formatPlistDate t.modDate ++ "</date>" ++
  "<key>serialNumber</key><data>" ++ (⟨base64Encode t.serialNumber⟩ : String) ++
  "</data>" ++ "</dict>"

/-- The fixed header written by toXmlFile. -/
def xmlHeader : String := "<plist><dict><key>trustList</key><dict>"

/-- The fixed footer written by toXmlFile, including the version marker. -/
def xmlFooter : String :=
  "</dict>\n  <key>trustVersion</key>\n  <integer>1</integer>\n</dict></plist>"

/-- trustItems.toXmlFile (part_000 lines 316-360): header, the item
fragments in snapshot order, footer.  The file write itself is outside the
model; this is the byte content written. -/
def toXmlFile (t : List trustItem) : String :=
  xmlHeader ++ String.join (t.map trustItemXml) ++ xmlFooter

/-- Lexical token of the XML scanner: an opening tag, a closing tag, or
character data. -/
inductive XTok where
  | tagOpen : List Char → XTok
  | tagClose : List Char → XTok
  | chunk : List Char → XTok
  deriving DecidableEq, Repr

/-- Scanner state: accumulating character data, or inside an angle
bracket accumulating a tag. -/
inductive LexState where
  | txt : List Char → LexState
  | tag : List Char → LexState

/-- Character-level XML scanner for the attribute-free documents this codec
exchanges (modelled from the Go encoding/xml tokenizer restricted to plain
tags and character data). -/
def lexGo : List Char → LexState → List XTok
  | [], .txt acc => if acc.isEmpty then [] else [.chunk acc]
  | [], .tag _ => []
  | c :: rest, .txt acc =>
    if c = '<' then
      if acc.isEmpty then lexGo rest (.tag [])
      else .chunk acc :: lexGo rest (.tag [])
    else lexGo rest (.txt (acc ++ [c]))
  | c :: rest, .tag acc =>
    if c = '>' then
      match acc with
      | '/' :: nm => .tagClose nm :: lexGo rest (.txt [])
      | nm => .tagOpen nm :: lexGo rest (.txt [])
    else lexGo rest (.tag (acc ++ [c]))

/-- The chidley-generated dict struct (part_000 lines 430-436): parallel
slices of data, date, integer and key entries (each entry the chardata of
one element) and one nested dict pointer.  Repeated dict elements merge
into the existing pointer, appending to its slices, per encoding/xml
unmarshalling of a non-nil pointer field. -/
inductive dictT where
  | mk : List String → List String → Option dictT → List Bool → List String → dictT

/-- The data entries of a dict. -/
def dictT.ChiData : dictT → List String
  | .mk a _ _ _ _ => a

/-- The date entries of a dict. -/
def dictT.ChiDate : dictT → List String
  | .mk _ a _ _ _ => a

/-- The nested dict pointer of a dict. -/
def dictT.ChiDict : dictT → Option dictT
  | .mk _ _ a _ _ => a

/-- The integer entries of a dict. -/
def dictT.ChiInteger : dictT → List Bool
  | .mk _ _ _ a _ => a

/-- The key entries of a dict. -/
def dictT.ChiKey : dictT → List String
  | .mk _ _ _ _ a => a

/-- The zero value of the dict struct. -/
def emptyDict : dictT := .mk [] [] none [] []

/-- The top-level plist struct (part_000 lines 426-428). -/
structure plistT where
  ChiDict : Option dictT

/-- strconv.ParseBool as invoked by encoding/xml for the bool chardata of
the integer struct, restricted to the true spellings; this model treats
unparsable text as false where Go would fail the decode, a case no claim
exercises. -/
def goParseBool (s : String) : Bool :=
  s = "1" || s = "t" || s = "T" || s = "true" || s = "TRUE" || s = "True"

/-- Replace the nested dict pointer of a dict. -/
def setChiDict : dictT → Option dictT → dictT
  | .mk a b _ c d, nd => .mk a b nd c d

/-- Append the chardata of one closed leaf element to the matching slice
of the dict struct. -/
def appendLeaf (d : dictT) (nm : List Char) (text : String) : dictT :=
  match d with
  | .mk cda cdt cdict cint ckey =>
    if nm = "data".data then .mk (cda ++ [text]) cdt cdict cint ckey
    else if nm = "date".data then .mk cda (cdt ++ [text]) cdict cint ckey
    else if nm = "key".data then .mk cda cdt cdict cint (ckey ++ [text])
    else if nm = "integer".data then .mk cda cdt cdict (cint ++ [goParseBool text]) ckey
    else d

/-- One open element during decoding: the root element mapped to the plist
struct, a dict element with the struct built so far, a leaf element
(data, date, key, integer) accumulating chardata, or an unmapped element
being skipped. -/
inductive DecFrame where
  | plistF : List Char → Option dictT → DecFrame
  | dictF : List Char → dictT → DecFrame
  | leafF : List Char → List Char → DecFrame
  | skipF : List Char → DecFrame

/-- Token-stream unmarshaller for the plist struct, modelled from
encoding/xml Decode restricted to these structs: the first element becomes
the root regardless of name; dict children merge into the existing nested
pointer; data, date, key and integer children append their chardata;
unmapped elements are skipped; character data outside a chardata field is
ignored; mismatched or missing end elements are the decode error; decoding
stops when the root element closes, ignoring trailing input. -/
def decGo : List XTok → List DecFrame → Except String plistT
  | [], _ => .error "unexpected EOF"
  | .chunk _ :: ts, [] => decGo ts []
  | .tagOpen nm :: ts, [] => decGo ts [.plistF nm none]
  | .tagClose _ :: _, [] => .error "unexpected end element"
  | .chunk s :: ts, .leafF nm acc :: st => decGo ts (.leafF nm (acc ++ s) :: st)
  | .chunk _ :: ts, st => decGo ts st
  | .tagOpen nm :: ts, .plistF rn cur :: st =>
    if nm = "dict".data then
      decGo ts (.dictF nm (cur.getD emptyDict) :: .plistF rn cur :: st)
    else decGo ts (.skipF nm :: .plistF rn cur :: st)
  | .tagOpen nm :: ts, .dictF dn d :: st =>
    if nm = "dict".data then
      decGo ts (.dictF nm (d.ChiDict.getD emptyDict) :: .dictF dn d :: st)
    else if nm = "data".data || nm = "date".data || nm = "key".data ||
        nm = "integer".data then
      decGo ts (.leafF nm [] :: .dictF dn d :: st)
    else decGo ts (.skipF nm :: .dictF dn d :: st)
  | .tagOpen nm :: ts, fr :: st => decGo ts (.skipF nm :: fr :: st)
  | .tagClose nm :: ts, fr :: st =>
    match fr with
    | .plistF rn cur =>
      if nm = rn then .ok ⟨cur⟩ else .error "mismatched end element"
    | .dictF dn d =>
      if nm = dn then
        match st with
        | .plistF rn _ :: st2 => decGo ts (.plistF rn (some d) :: st2)
        | .dictF pn p :: st2 => decGo ts (.dictF pn (setChiDict p (some d)) :: st2)
        | _ => .error "malformed document"
      else .error "mismatched end element"
    | .leafF ln acc =>
      if nm = ln then
        match st with
        | .dictF pn p :: st2 => decGo ts (.dictF pn (appendLeaf p ln ⟨acc⟩) :: st2)
        | _ => .error "malformed document"
      else .error "mismatched end element"
    | .skipF sn =>
      if nm = sn then decGo ts st else .error "mismatched end element"

/-- parsePlist (part_000 lines 413-418): decode the reader contents with
encoding/xml into the plist struct; a syntactically malformed document is
the returned error. -/
def parsePlist (s : String) : Except String plistT :=
  decGo (lexGo s.data (.txt [])) []

/-- The loop body of plist.convertToTrustItems (part_000 lines 458-493),
indexed exactly as the source: key at i/2, data at i and i+1, date at i/2;
a missing pointer or out-of-range index is the crash outcome.  The fuel
argument only bounds the recursion: the loop starts with fuel max plus one
and the index grows by two each step, so fuel never runs out. -/
def convertLoop (d2 d3 : dictT) (max : Nat) :
    Nat → Nat → List trustItem → Outcome (List trustItem)
  | 0, _, _ => .crash
  | fuel + 1, i, acc =>
    if i < max then
      match d2.ChiKey.get? (i / 2), d3.ChiData.get? i, d3.ChiData.get? (i + 1),
          d3.ChiDate.get? (i / 2) with
      | some k, some s1raw, some s2raw, some dt =>
        let s1 := stripForBase64 s1raw.data
        let s2 := stripForBase64 s2raw.data
        let bs1 := (base64DecodeGo s1).1
        let bs2 := (base64DecodeGo s2).1
        let issuer :=
          match asn1Unmarshal bs1 with
          | some rdns => FillFromRDNSequence rdns
          | none => emptyName
        let md :=
          match parsePlistDate dt with
          | some t => t
          | none => zeroTime
        convertLoop d2 d3 max fuel (i + 2) (acc ++ [⟨strToLower k, issuer, md, bs2, 0⟩])
      | _, _, _, _ => .crash
    else .ok acc

/-- plist.convertToTrustItems (part_000 lines 454-496): dereference the
triply nested dict (nil at any level is a nil-pointer panic, the crash
outcome), then convert stride-two over the data array. -/
def convertToTrustItems (p : plistT) : Outcome (List trustItem) :=
  match p.ChiDict with
  | none => .crash
  | some d1 =>
    match d1.ChiDict with
    | none => .crash
    | some d2 =>
      match d2.ChiDict with
      | none => .crash
      | some d3 => convertLoop d2 d3 d3.ChiData.length (d3.ChiData.length + 1) 0 []

/-- The snapshot read path: parsePlist then convertToTrustItems, as
composed by getCertsWithTrustPolicy. -/
def ParseSnapshot (s : String) : Outcome (List trustItem) :=
  match parsePlist s with
  | .error e => .error e
  | .ok p => convertToTrustItems p

/-- getCertsWithTrustPolicy (part_000 lines 155-168): when
trustSettingsExport returns an error its file handle is nil, and the
deferred fd.Name() call dereferences the nil pointer before the error
check, so any export failure is a crash; otherwise the exported content is
parsed and converted. -/
def getCertsWithTrustPolicy (tse : Option String) : Outcome (List trustItem) :=
  match tse with
  | none => .crash
  | some content => ParseSnapshot content

/-- trustItems.contains (part_000 lines 302-314): a nil certificate is
reported as contained; otherwise its fingerprint is compared against every
record. -/
def trustItemsContains (t : List trustItem) (cert : Option Certificate) : Bool :=
  match cert with
  | none => true
  | some c => t.any (fun item => GetHexSHA1Fingerprint c == item.sha1Fingerprint)

/-- The accumulator loop of readInstalledCerts (part_000 lines 136-150):
skip nil entries and append a certificate only when no accumulated entry
has the same signature (reflect.DeepEqual on Signature).  Accumulator
entries are non-nil by construction, so the nil comparison arm is
unreachable. -/
def readInstalledGo (res : List (Option Certificate)) :
    List (Option Certificate) → List (Option Certificate)
  | [] => res
  | none :: rest => readInstalledGo res rest
  | some cert :: rest =>
    if res.any (fun r =>
        match r with
        | some r0 => r0.signature == cert.signature
        | none => false) then readInstalledGo res rest
    else readInstalledGo (res ++ [some cert]) rest

/-- readInstalledCerts (part_000 lines 121-153) applied to the parsed
output of the security dump. -/
def readInstalledCerts (cs : List (Option Certificate)) : List (Option Certificate) :=
  readInstalledGo [] cs

/-- The kept loop of darwinStore.List (part_000 lines 105-114): nil
entries hit the continue; an entry the policy contains is appended. -/
def darwinListGo (t : List trustItem) (kept : List (Option Certificate)) :
    List (Option Certificate) → List (Option Certificate)
  | [] => kept
  | none :: rest => darwinListGo t kept rest
  | some c :: rest =>
    if trustItemsContains t (some c) then darwinListGo t (kept ++ [some c]) rest
    else darwinListGo t kept rest

/-- darwinStore.List (part_000 lines 91-117) as a function of the parsed
certificate dump and the parsed trust policy: deduplicate installed
certificates, then keep those the policy contains. -/
def darwinList (cs : List (Option Certificate)) (t : List trustItem) :
    List (Option Certificate) :=
  darwinListGo t [] (readInstalledCerts cs)


/-- A concrete issuer name (C equals US, CN equals Test CA) in the
parse-canonical form FillFromRDNSequence produces: Names lists the
attributes in sequence order and ExtraNames is empty. -/
def exampleIssuer : PkixName :=
  { Country := ["US"], Organization := [], OrganizationalUnit := [],
    Locality := [], Province := [], StreetAddress := [], PostalCode := [],
    SerialNumber := "", CommonName := "Test CA",
    Names := [⟨[2, 5, 4, 6], "US"⟩, ⟨[2, 5, 4, 3], "Test CA"⟩],
    ExtraNames := [] }

/-- A two-record snapshot document in the exact shape toXmlFile writes,
except that the first record's issuerName data is the corrupt text three
exclamation marks (not base64, so the cleanup strips it to nothing and the
ASN.1 decode fails); the second record is intact. -/
def corruptIssuerDoc : String :=
  "<plist><dict><key>trustList</key><dict>" ++
  "<key>AB01</key><dict><key>issuerName</key><data>!!!</data>" ++
  "<key>modDate</key><date>2017-10-02T14:05:06Z</date>" ++
  "<key>serialNumber</key><data>AaQ=</data></dict>" ++
  "<key>CD02</key><dict><key>issuerName</key>" ++
  "<data>MB8xCzAJBgNVBAYTAlVTMRAwDgYDVQQDEwdUZXN0IENB</data>" ++
  "<key>modDate</key><date>2018-01-05T06:07:08Z</date>" ++
  "<key>serialNumber</key><data>AQID</data></dict>" ++
  "</dict>\n  <key>trustVersion</key>\n  <integer>1</integer>\n</dict></plist>"


/-- Lowercase hexadecimal characters, the alphabet of stored fingerprints
(spec section 3: fingerprint is lowercase hex). -/
def isLowerHex (c : Char) : Bool :=
  (48 ≤ c.toNat && c.toNat ≤ 57) || (97 ≤ c.toNat && c.toNat ≤ 102)

/-- A well-formed issuer name for the round-trip claim: no ExtraNames, the
Names cache consistent with the name's own sequence form (as names built by
parsing are), and ASCII attribute values. -/
def wellFormedName (n : PkixName) : Bool :=
  n.ExtraNames.isEmpty &&
  (n.Names == (ToRDNSequence n).flatten) &&
  (ToRDNSequence n).all (fun rdn =>
    rdn.all (fun atv => atv.Value.data.all (fun c => decide (c.toNat < 128))))

/-- A well-formed trust record for the round-trip claim: lowercase-hex
fingerprint, well-formed issuer whose encoding is byte-valued, in-range
timestamp fields up to year 9999, and byte-valued serial. -/
def wellFormedItem (it : trustItem) : Bool :=
  it.sha1Fingerprint.data.all isLowerHex &&
  wellFormedName it.issuerName &&
  (asn1Marshal (ToRDNSequence it.issuerName)).all (fun b => decide (b < 256)) &&
  decide (1 ≤ it.modDate.year) && decide (it.modDate.year ≤ 9999) &&
  decide (1 ≤ it.modDate.month) && decide (it.modDate.month ≤ 12) &&
  decide (1 ≤ it.modDate.day) &&
  decide (it.modDate.day ≤ daysInMonth it.modDate.year it.modDate.month) &&
  decide (it.modDate.hour ≤ 23) && decide (it.modDate.minute ≤ 59) &&
  decide (it.modDate.second ≤ 59) &&
  it.serialNumber.all (fun b => decide (b < 256))

/-- The token run of one piece of character data: empty text produces no
token. -/
def chunkToks (s : List Char) : List XTok :=
  if s.isEmpty then [] else [.chunk s]

/-- The token run the scanner produces for one serialized trust item. -/
def itemToks (t : trustItem) : List XTok :=
  [.tagOpen "key".data] ++ chunkToks (strToUpper t.sha1Fingerprint).data ++
  [.tagClose "key".data, .tagOpen "dict".data,
   .tagOpen "key".data, .chunk "issuerName".data, .tagClose "key".data,
   .tagOpen "data".data] ++
  chunkToks (base64Encode (asn1Marshal (ToRDNSequence t.issuerName))) ++
  [.tagClose "data".data, .tagOpen "key".data, .chunk "modDate".data,
   .tagClose "key".data, .tagOpen "date".data] ++
  chunkToks (formatPlistDate t.modDate).data ++
  [.tagClose "date".data, .tagOpen "key".data, .chunk "serialNumber".data,
   .tagClose "key".data, .tagOpen "data".data] ++
  chunkToks (base64Encode t.serialNumber) ++
  [.tagClose "data".data, .tagClose "dict".data]

/-- The effect of decoding one serialized item's inner dict element into
the merged third-level dict: two data entries, one date entry, three key
entries. -/
def itemInnerDict (d3 : dictT) (t : trustItem) : dictT :=
  .mk
    (d3.ChiData ++
      [⟨base64Encode (asn1Marshal (ToRDNSequence t.issuerName))⟩,
       ⟨base64Encode t.serialNumber⟩])
    (d3.ChiDate ++ [formatPlistDate t.modDate])
    d3.ChiDict
    d3.ChiInteger
    (d3.ChiKey ++ ["issuerName", "modDate", "serialNumber"])

/-- The third-level dict accumulated over a run of serialized items. -/
def mergeItems (d3 : dictT) : List trustItem → dictT
  | [] => d3
  | t :: rest => mergeItems (itemInnerDict d3 t) rest


/-- The sequence contribution of one multi-valued name field. -/
def rdnPiece (vals : List String) (oid : List Nat) : RDNSequence :=
  if vals.isEmpty then [] else [vals.map fun v => ⟨oid, v⟩]

/-- The sequence contribution of one single-valued name field. -/
def singlePiece (s : String) (oid : List Nat) : RDNSequence :=
  if 0 < s.length then [[⟨oid, s⟩]] else []

/-- The token run of the fixed header. -/
def headerToks : List XTok :=
  [.tagOpen "plist".data, .tagOpen "dict".data, .tagOpen "key".data,
   .chunk "trustList".data, .tagClose "key".data, .tagOpen "dict".data]

/-- The token run of the fixed footer. -/
def footerToks : List XTok :=
  [.tagClose "dict".data, .chunk "\n  ".data, .tagOpen "key".data,
   .chunk "trustVersion".data, .tagClose "key".data, .chunk "\n  ".data,
   .tagOpen "integer".data, .chunk "1".data, .tagClose "integer".data,
   .chunk "\n".data, .tagClose "dict".data, .tagClose "plist".data]

/-- The effect of decoding one serialized item on the second-level dict:
its key slice gains the uppercased fingerprint and its nested dict absorbs
the item's inner element. -/
def itemOuterDict (d : dictT) (t : trustItem) : dictT :=
  .mk d.ChiData d.ChiDate
    (some (itemInnerDict (d.ChiDict.getD emptyDict) t))
    d.ChiInteger
    (d.ChiKey ++ [strToUpper t.sha1Fingerprint])

/-- The second-level dict accumulated over a run of serialized items. -/
def mergeOuter (d : dictT) : List trustItem → dictT
  | [] => d
  | t :: rest => mergeOuter (itemOuterDict d t) rest

/-- A concrete well-formed trust record exercising the round-trip. -/
def sampleItem : trustItem :=
  { sha1Fingerprint := "ab01", issuerName := exampleIssuer,
    modDate := ⟨2017, 10, 2, 14, 5, 6⟩, serialNumber := [1, 164],
    kSecTrustSettingsResult := 0 }

/-! ## Theorems -/

/-- Membership in the output of Keep: x occurs in the output iff it is a
non-nil certificate from the input matched by at least one whitelist item. -/
theorem mem_Keep_iff (incoming : List (Option Certificate))
    (whitelisted : List WhitelistItem) (x : Option Certificate) :
    x ∈ Keep incoming whitelisted ↔
      ∃ c, x = some c ∧ some c ∈ incoming ∧
        ∃ wh ∈ whitelisted, wh.Matches c = true := by
  induction incoming with
  | nil =>
    simp [Keep]
  | cons inc rest ih =>
    simp only [Keep, List.foldr_cons, List.mem_append] at *
    constructor
    · rintro (h | h)
      · match inc with
        | none => simp [keepMatches] at h
        | some c =>
          simp only [keepMatches, List.mem_map, List.mem_filter] at h
          obtain ⟨wh, ⟨hwh, hm⟩, rfl⟩ := h
          exact ⟨c, rfl, List.mem_cons_self _ _, wh, hwh, hm⟩
      · obtain ⟨c, rfl, hc, wh, hwh, hm⟩ := ih.mp h
        exact ⟨c, rfl, List.mem_cons_of_mem _ hc, wh, hwh, hm⟩
    · rintro ⟨c, rfl, hc, wh, hwh, hm⟩
      rcases List.mem_cons.mp hc with heq | hc'
      · left
        simp only [← heq, keepMatches, List.mem_map, List.mem_filter]
        exact ⟨wh, ⟨hwh, hm⟩, trivial⟩
      · right
        exact ih.mpr ⟨c, rfl, hc', wh, hwh, hm⟩

/-- C2: Keep appends one copy of the certificate per matching whitelist item,
so with two items matching the same certificate the fingerprint appears twice
in the output.  This evaluates Keep at the failing input: one certificate
with fingerprint aabb and a whitelist of two items that both match it. -/
theorem keep_duplicates_fingerprint_on_double_match :
    Keep [some ⟨[1], "aabb"⟩]
        [⟨fun c => c.sha1Hex == "aabb"⟩, ⟨fun c => c.sha1Hex == "aabb"⟩]
      = [some ⟨[1], "aabb"⟩, some ⟨[1], "aabb"⟩] ∧
    ¬ (List.map (fun oc => Option.map GetHexSHA1Fingerprint oc)
        (Keep [some ⟨[1], "aabb"⟩]
          [⟨fun c => c.sha1Hex == "aabb"⟩, ⟨fun c => c.sha1Hex == "aabb"⟩])).Nodup := by
  constructor
  · rfl
  · decide

/-- C7: with an empty whitelist, Keep returns an empty result for any
non-empty list of certificates (the inner loop never appends). -/
theorem keep_empty_whitelist (certs : List (Option Certificate))
    (h : certs ≠ []) : Keep certs [] = [] := by
  induction certs with
  | nil => rfl
  | cons inc rest ih =>
    show keepMatches inc [] ++ Keep rest [] = []
    have hk : keepMatches inc [] = [] := by
      cases inc <;> rfl
    rcases rest with _ | ⟨r, rs⟩
    · simp [hk, Keep]
    · simp [hk, ih (by simp)]

/-- Witness for C7 at the concrete input of one certificate. -/
theorem keep_empty_whitelist_witness :
    ([some ⟨[0], "ff"⟩] : List (Option Certificate)) ≠ [] ∧
      Keep [some ⟨[0], "ff"⟩] [] = [] :=
  ⟨by decide, keep_empty_whitelist [some ⟨[0], "ff"⟩] (by decide)⟩

/-- C8: applying the same whitelist twice yields no further narrowing; the
output of Keep applied twice is set-equal (same members) to one application. -/
theorem keep_idempotent (certs : List (Option Certificate))
    (wl : List WhitelistItem) (x : Option Certificate) :
    x ∈ Keep (Keep certs wl) wl ↔ x ∈ Keep certs wl := by
  constructor
  · intro h
    obtain ⟨c, rfl, hc, _, _, _⟩ := (mem_Keep_iff _ _ _).mp h
    exact hc
  · intro h
    obtain ⟨c, rfl, hc, wh, hwh, hm⟩ := (mem_Keep_iff _ _ _).mp h
    exact (mem_Keep_iff _ _ _).mpr ⟨c, rfl, h, wh, hwh, hm⟩

/-- Witness for C8 at a concrete certificate list and whitelist. -/
theorem keep_idempotent_witness :
    some (⟨[2], "cc"⟩ : Certificate) ∈
        Keep (Keep [some ⟨[2], "cc"⟩] [⟨fun _ => true⟩]) [⟨fun _ => true⟩] ↔
      some (⟨[2], "cc"⟩ : Certificate) ∈
        Keep [some ⟨[2], "cc"⟩] [⟨fun _ => true⟩] :=
  keep_idempotent [some ⟨[2], "cc"⟩] [⟨fun _ => true⟩] (some ⟨[2], "cc"⟩)

/-- C10: every element of the output of Keep is a non-nil certificate that
occurs in the input and matches at least one whitelist item; conversely every
non-nil input certificate matching at least one item occurs in the output;
and the output never contains a nil entry. -/
theorem keep_output_characterization (incoming : List (Option Certificate))
    (wl : List WhitelistItem) :
    (∀ x ∈ Keep incoming wl, ∃ c, x = some c ∧ some c ∈ incoming ∧
        ∃ wh ∈ wl, wh.Matches c = true) ∧
    (∀ c : Certificate, some c ∈ incoming →
        (∃ wh ∈ wl, wh.Matches c = true) → some c ∈ Keep incoming wl) ∧
    none ∉ Keep incoming wl := by
  refine ⟨fun x hx => (mem_Keep_iff _ _ _).mp hx, ?_, ?_⟩
  · rintro c hc ⟨wh, hwh, hm⟩
    exact (mem_Keep_iff _ _ _).mpr ⟨c, rfl, hc, wh, hwh, hm⟩
  · intro h
    obtain ⟨c, hc, -⟩ := (mem_Keep_iff _ _ _).mp h
    exact Option.noConfusion hc

/-- Witness for C10 at a concrete certificate list and whitelist. -/
theorem keep_output_characterization_witness :
    (∀ x ∈ Keep [some ⟨[3], "dd"⟩] [⟨fun _ => true⟩],
        ∃ c, x = some c ∧ some c ∈ [some (⟨[3], "dd"⟩ : Certificate)] ∧
          ∃ wh ∈ [(⟨fun _ => true⟩ : WhitelistItem)], wh.Matches c = true) ∧
    (∀ c : Certificate, some c ∈ [some (⟨[3], "dd"⟩ : Certificate)] →
        (∃ wh ∈ [(⟨fun _ => true⟩ : WhitelistItem)], wh.Matches c = true) →
        some c ∈ Keep [some ⟨[3], "dd"⟩] [⟨fun _ => true⟩]) ∧
    none ∉ Keep [some ⟨[3], "dd"⟩] [⟨fun _ => true⟩] :=
  keep_output_characterization [some ⟨[3], "dd"⟩] [⟨fun _ => true⟩]

/-- insertByTime never returns the empty list. -/
theorem insertByTime_ne_nil (f : FileInfo) (l : List FileInfo) :
    insertByTime f l ≠ [] := by
  cases l with
  | nil => simp [insertByTime]
  | cons g rest =>
    simp only [insertByTime]
    split <;> simp

/-- Membership is preserved by insertByTime. -/
theorem mem_insertByTime (x f : FileInfo) (l : List FileInfo) :
    x ∈ insertByTime f l ↔ x = f ∨ x ∈ l := by
  induction l with
  | nil => simp [insertByTime]
  | cons g rest ih =>
    simp only [insertByTime]
    split
    · simp [List.mem_cons]
    · simp only [List.mem_cons, ih]
      tauto

/-- Membership is preserved by SortFileInfos. -/
theorem mem_SortFileInfos (x : FileInfo) (l : List FileInfo) :
    x ∈ SortFileInfos l ↔ x ∈ l := by
  induction l with
  | nil => simp [SortFileInfos]
  | cons g rest ih =>
    show x ∈ insertByTime g (SortFileInfos rest) ↔ _
    rw [mem_insertByTime, ih]
    simp [List.mem_cons]

/-- Inserting an element strictly larger than everything appends it. -/
theorem insertByTime_all_lt (f : FileInfo) (l : List FileInfo)
    (h : ∀ g ∈ l, g.modTime < f.modTime) : insertByTime f l = l ++ [f] := by
  induction l with
  | nil => rfl
  | cons g rest ih =>
    have hg := h g (List.mem_cons_self _ _)
    simp only [insertByTime, if_neg (by omega : ¬ f.modTime ≤ g.modTime)]
    rw [ih (fun g' hg' => h g' (List.mem_cons_of_mem _ hg'))]
    rfl

/-- Inserting an element no larger than the last element keeps the last. -/
theorem getLast?_insertByTime (x f : FileInfo) (l : List FileInfo)
    (hl : l.getLast? = some f) (hx : x.modTime ≤ f.modTime) :
    (insertByTime x l).getLast? = some f := by
  induction l with
  | nil => simp at hl
  | cons g rest ih =>
    simp only [insertByTime]
    split
    · rw [List.getLast?_cons_cons]
      exact hl
    · rename_i hle
      cases rest with
      | nil =>
        simp only [List.getLast?_singleton, Option.some.injEq] at hl
        subst hl
        omega
      | cons r rs =>
        rw [List.getLast?_cons_cons] at hl
        have hne := insertByTime_ne_nil x (r :: rs)
        obtain ⟨y, ys, hys⟩ := List.exists_cons_of_ne_nil hne
        rw [hys, List.getLast?_cons_cons, ← hys]
        exact ih hl

/-- The last element after sorting is the strictly-largest element. -/
theorem getLast?_SortFileInfos_max (l : List FileInfo) (f : FileInfo)
    (hf : f ∈ l) (hmax : ∀ g ∈ l, g ≠ f → g.modTime < f.modTime) :
    (SortFileInfos l).getLast? = some f := by
  induction l with
  | nil => simp at hf
  | cons x rest ih =>
    show (insertByTime x (SortFileInfos rest)).getLast? = some f
    by_cases hx : x = f
    · subst hx
      by_cases hf' : x ∈ rest
      · have ihh := ih hf' (fun g hg hne => hmax g (List.mem_cons_of_mem _ hg) hne)
        exact getLast?_insertByTime _ _ _ ihh (le_refl _)
      · have hall : ∀ g ∈ SortFileInfos rest, g.modTime < x.modTime := by
          intro g hg
          have hgr : g ∈ rest := (mem_SortFileInfos _ _).mp hg
          exact hmax g (List.mem_cons_of_mem _ hgr) (fun he => hf' (he ▸ hgr))
        rw [insertByTime_all_lt _ _ hall]
        exact List.getLast?_concat _
    · have hfr : f ∈ rest := by
        rcases List.mem_cons.mp hf with h | h
        · exact absurd h.symm hx
        · exact h
      have ihh := ih hfr (fun g hg hne => hmax g (List.mem_cons_of_mem _ hg) hne)
      exact getLast?_insertByTime x f _ ihh
        (le_of_lt (hmax x (List.mem_cons_self _ _) hx))

/-- A path of the form dir/slash/name is never the empty string. -/
theorem joined_path_ne_empty (a b : String) : a ++ "/" ++ b ≠ "" := by
  intro h
  have hlen := congrArg String.length h
  rw [String.length_append, String.length_append] at hlen
  have h1 : ("/" : String).length = 1 := rfl
  have h0 : ("" : String).length = 0 := rfl
  omega

/-- C4: with backups timestamped T1 less than T2 less than T3, an empty
restore path resolves to the T3 file and Restore imports it; with no backup
directory or an empty one and no path given, Restore fails with the
no-backup-found error; with an explicit path missing on disk, Restore fails
with the restore-file-missing error. -/
theorem restore_resolution_and_errors
    (env1 env2 env3 : RestoreEnv) (f1 f2 f3 : FileInfo) (p : String)
    (hdir : env1.readDir = some [f1, f2, f3])
    (h12 : f1.modTime < f2.modTime) (h23 : f2.modTime < f3.modTime)
    (hex : env1.fileExists (env1.backupDir ++ "/" ++ f3.name) = true)
    (hnb : env2.readDir = none ∨ env2.readDir = some [])
    (hp : p ≠ "") (hmiss : env3.fileExists p = false) :
    getLatestBackupFile env1 = env1.backupDir ++ "/" ++ f3.name ∧
    Restore "" env1 =
      (env1.importResult (env1.backupDir ++ "/" ++ f3.name)).map .importFailure ∧
    Restore "" env2 = some .noBackupFound ∧
    Restore p env3 = some .restoreFileMissing := by
  have hlast : (SortFileInfos [f1, f2, f3]).getLast? = some f3 := by
    refine getLast?_SortFileInfos_max _ f3 (by simp) ?_
    intro g hg hne
    simp only [List.mem_cons, List.not_mem_nil, or_false] at hg
    rcases hg with h | h | h
    · subst h; omega
    · subst h; omega
    · exact absurd h hne
  have hresolve : getLatestBackupFile env1 = env1.backupDir ++ "/" ++ f3.name := by
    unfold getLatestBackupFile
    rw [hdir]
    simp [hlast]
  refine ⟨hresolve, ?_, ?_, ?_⟩
  · simp [Restore, hresolve, hex, joined_path_ne_empty env1.backupDir f3.name]
  · have h2 : getLatestBackupFile env2 = "" := by
      rcases hnb with h | h <;> simp [getLatestBackupFile, h]
    simp [Restore, h2]
  · simp [Restore, hp, hmiss]

/-- Witness for C4 at a concrete three-backup directory and concrete
failure environments. -/
theorem restore_resolution_and_errors_witness :
    getLatestBackupFile
        ⟨"/u/cm", some [⟨"trust-backup-1.xml", 1⟩, ⟨"trust-backup-2.xml", 2⟩,
          ⟨"trust-backup-3.xml", 3⟩], fun s => s == "/u/cm/trust-backup-3.xml",
          fun _ => none⟩
      = "/u/cm" ++ "/" ++ "trust-backup-3.xml" ∧
    Restore ""
        ⟨"/u/cm", some [⟨"trust-backup-1.xml", 1⟩, ⟨"trust-backup-2.xml", 2⟩,
          ⟨"trust-backup-3.xml", 3⟩], fun s => s == "/u/cm/trust-backup-3.xml",
          fun _ => none⟩
      = none ∧
    Restore "" ⟨"/u/cm", none, fun _ => false, fun _ => none⟩
      = some .noBackupFound ∧
    Restore "/gone.xml" ⟨"/u/cm", none, fun _ => false, fun _ => none⟩
      = some .restoreFileMissing :=
  restore_resolution_and_errors
    ⟨"/u/cm", some [⟨"trust-backup-1.xml", 1⟩, ⟨"trust-backup-2.xml", 2⟩,
      ⟨"trust-backup-3.xml", 3⟩], fun s => s == "/u/cm/trust-backup-3.xml",
      fun _ => none⟩
    ⟨"/u/cm", none, fun _ => false, fun _ => none⟩
    ⟨"/u/cm", none, fun _ => false, fun _ => none⟩
    ⟨"trust-backup-1.xml", 1⟩ ⟨"trust-backup-2.xml", 2⟩ ⟨"trust-backup-3.xml", 3⟩
    "/gone.xml" rfl (by decide) (by decide) (by decide) (Or.inl rfl)
    (by decide) rfl

/-- C6: evaluating Backup where temp-file creation succeeds but the export
tool fails: trustSettingsExport returns a nil handle together with the
error, so no removal is deferred and the temporary file is left on disk,
contradicting the claim that it is always removed before Backup returns. -/
theorem backup_leaks_temp_on_export_failure :
    Backup ⟨true, "/tmp/trust-settings1", false, true, "/u/cm", true, true, 1500000000⟩ =
      { err := some "export tool failed", tempFileOnDisk := true,
        backupFile := none } := by
  rfl

/-- C1 counterexample: serializing the empty snapshot and parsing it back
does not round-trip: with no records the triply nested dict is absent from
the decoded plist and convertToTrustItems dereferences a nil pointer. -/
theorem roundtrip_crashes_on_empty_snapshot :
    ParseSnapshot (toXmlFile []) = .crash := by
  decide

/-- C3: a document missing the outer dict wrapper is decoded successfully
by parsePlist and then crashes convertToTrustItems (nil-pointer
dereference) instead of failing with a malformed-snapshot error; a
document whose only defect is one corrupt issuer blob parses successfully,
the corrupt record getting the empty issuer name and the other record
coming back intact. -/
theorem parseSnapshot_missing_dict_and_corrupt_issuer :
    ParseSnapshot "<plist></plist>" = .crash ∧
    ParseSnapshot corruptIssuerDoc =
      .ok [⟨"ab01", emptyName, ⟨2017, 10, 2, 14, 5, 6⟩, [1, 164], 0⟩,
           ⟨"cd02", exampleIssuer, ⟨2018, 1, 5, 6, 7, 8⟩, [1, 2, 3], 0⟩] := by
  constructor
  · decide
  · decide

/-- C9: the snapshot read path can crash rather than return a value or an
error: when trustSettingsExport fails the deferred fd.Name() dereferences
a nil file handle; a decoded plist without the nested dicts is a
nil-pointer dereference; a data array of odd length indexes past its end;
a key array shorter than half the data array indexes past its end. -/
theorem parse_path_crash_cases :
    getCertsWithTrustPolicy none = .crash ∧
    convertToTrustItems ⟨none⟩ = .crash ∧
    convertToTrustItems
      ⟨some (.mk [] [] (some (.mk [] []
        (some (.mk ["AA"] ["2017-10-02T14:05:06Z"] none [] [])) [] ["k1"])) [] [])⟩
      = .crash ∧
    convertToTrustItems
      ⟨some (.mk [] [] (some (.mk [] []
        (some (.mk ["AA", "BB"] ["2017-10-02T14:05:06Z"] none [] [])) [] [])) [] [])⟩
      = .crash := by
  refine ⟨by decide, by decide, by decide, by decide⟩

/-- C5 counterexample: a nil certificate entry is treated as present in
the policy by trustItems.contains, yet List silently drops it: the result
of the List pipeline on a dump holding one nil entry is empty. -/
theorem list_drops_nil_entry :
    trustItemsContains [] none = true ∧ darwinList [none] [] = [] := by
  decide

/-- The kept loop appends exactly the non-nil entries the policy
contains. -/
theorem darwinListGo_eq_filter (t : List trustItem) :
    ∀ (l kept : List (Option Certificate)),
      darwinListGo t kept l =
        kept ++ l.filter (fun x => x.isSome && trustItemsContains t x)
  | [], kept => by simp [darwinListGo]
  | none :: rest, kept => by
    simp [darwinListGo, darwinListGo_eq_filter t rest kept, List.filter_cons]
  | some c :: rest, kept => by
    by_cases h : trustItemsContains t (some c) = true
    · simp [darwinListGo, h, darwinListGo_eq_filter t rest (kept ++ [some c]),
        List.filter_cons]
    · simp [darwinListGo, h, darwinListGo_eq_filter t rest kept, List.filter_cons,
        Bool.eq_false_iff.mpr h]

/-- The dedup accumulator only grows. -/
theorem readInstalledGo_mono :
    ∀ (l res : List (Option Certificate)) (x : Option Certificate),
      x ∈ res → x ∈ readInstalledGo res l
  | [], _, _, hx => hx
  | none :: rest, res, x, hx => readInstalledGo_mono rest res x hx
  | some cert :: rest, res, x, hx => by
    simp only [readInstalledGo]
    split
    · exact readInstalledGo_mono rest res x hx
    · exact readInstalledGo_mono rest _ x (List.mem_append_left _ hx)

/-- Every entry produced by the dedup loop is an accumulator entry or a
non-nil entry of the input. -/
theorem readInstalledGo_shape :
    ∀ (l res : List (Option Certificate)) (x : Option Certificate),
      x ∈ readInstalledGo res l →
      x ∈ res ∨ ∃ c, x = some c ∧ some c ∈ l
  | [], res, x, hx => Or.inl hx
  | none :: rest, res, x, hx => by
    rcases readInstalledGo_shape rest res x hx with h | ⟨c, rfl, hc⟩
    · exact Or.inl h
    · exact Or.inr ⟨c, rfl, List.mem_cons_of_mem _ hc⟩
  | some cert :: rest, res, x, hx => by
    simp only [readInstalledGo] at hx
    split at hx
    · rcases readInstalledGo_shape rest res x hx with h | ⟨c, rfl, hc⟩
      · exact Or.inl h
      · exact Or.inr ⟨c, rfl, List.mem_cons_of_mem _ hc⟩
    · rcases readInstalledGo_shape rest _ x hx with h | ⟨c, rfl, hc⟩
      · rcases List.mem_append.mp h with h2 | h2
        · exact Or.inl h2
        · rcases List.mem_singleton.mp h2 with rfl
          exact Or.inr ⟨cert, rfl, List.mem_cons_self _ _⟩
      · exact Or.inr ⟨c, rfl, List.mem_cons_of_mem _ hc⟩

/-- The dedup loop preserves pairwise-distinct signatures. -/
theorem readInstalledGo_pairwise :
    ∀ (l res : List (Option Certificate)),
      res.Pairwise (fun a b => ∀ ca cb, a = some ca → b = some cb →
        ¬ ca.signature = cb.signature) →
      (readInstalledGo res l).Pairwise (fun a b => ∀ ca cb, a = some ca →
        b = some cb → ¬ ca.signature = cb.signature)
  | [], _, hres => hres
  | none :: rest, res, hres => readInstalledGo_pairwise rest res hres
  | some cert :: rest, res, hres => by
    simp only [readInstalledGo]
    split
    · exact readInstalledGo_pairwise rest res hres
    · rename_i hany
      refine readInstalledGo_pairwise rest _ ?_
      rw [List.pairwise_append]
      refine ⟨hres, List.pairwise_singleton _ _, ?_⟩
      intro a ha b hb ca cb hca hcb
      rcases List.mem_singleton.mp hb
      rcases Option.some.inj hcb.symm with rfl
      have := List.any_eq_false.mp (Bool.not_eq_true _ ▸ hany) a ha
      subst hca
      simpa using this

/-- Every non-nil input certificate has a same-signature representative in
the dedup output. -/
theorem readInstalledGo_covers :
    ∀ (l res : List (Option Certificate)) (c : Certificate),
      some c ∈ l →
      ∃ c2, some c2 ∈ readInstalledGo res l ∧ c2.signature = c.signature
  | [], _, _, hc => absurd hc (List.not_mem_nil _)
  | none :: rest, res, c, hc => by
    rcases List.mem_cons.mp hc with h | h
    · exact absurd h.symm (by simp)
    · exact readInstalledGo_covers rest res c h
  | some cert :: rest, res, c, hc => by
    rcases List.mem_cons.mp hc with h | h
    · rcases Option.some.inj h with rfl
      simp only [readInstalledGo]
      split
      · rename_i hany
        obtain ⟨r, hr, hpr⟩ := List.any_eq_true.mp hany
        match r, hpr with
        | some r0, hpr =>
          refine ⟨r0, readInstalledGo_mono rest res _ hr, ?_⟩
          simpa using hpr
      · exact ⟨c, readInstalledGo_mono rest _ _
          (List.mem_append_right _ (List.mem_singleton_self _)), rfl⟩
    · simp only [readInstalledGo]
      split
      · exact readInstalledGo_covers rest res c h
      · exact readInstalledGo_covers rest _ c h

/-- C5 (amended): List returns exactly the signature-deduplicated installed
certificates whose fingerprint the snapshot contains; the dedup keeps only
non-nil input entries, covers every non-nil input certificate by signature,
and never repeats a signature; the membership test conservatively treats a
nil certificate as present in the policy; and the result never contains a
nil entry (List skips nil entries rather than keeping them). -/
theorem darwinList_intersection (cs : List (Option Certificate))
    (t : List trustItem) :
    darwinList cs t = (readInstalledCerts cs).filter
        (fun x => x.isSome && trustItemsContains t x) ∧
    (∀ x ∈ readInstalledCerts cs, ∃ c, x = some c ∧ some c ∈ cs) ∧
    (∀ c : Certificate, some c ∈ cs →
      ∃ c2, some c2 ∈ readInstalledCerts cs ∧ c2.signature = c.signature) ∧
    (readInstalledCerts cs).Pairwise
      (fun a b => ∀ ca cb, a = some ca → b = some cb →
        ¬ ca.signature = cb.signature) ∧
    trustItemsContains t none = true ∧
    none ∉ darwinList cs t := by
  have hfilter : darwinList cs t = (readInstalledCerts cs).filter
      (fun x => x.isSome && trustItemsContains t x) := by
    unfold darwinList
    simpa using darwinListGo_eq_filter t (readInstalledCerts cs) []
  refine ⟨hfilter, ?_, ?_, ?_, rfl, ?_⟩
  · intro x hx
    rcases readInstalledGo_shape cs [] x hx with h | ⟨c, rfl, hc⟩
    · exact absurd h (List.not_mem_nil _)
    · exact ⟨c, rfl, hc⟩
  · intro c hc
    exact readInstalledGo_covers cs [] c hc
  · exact readInstalledGo_pairwise cs [] (List.Pairwise.nil)
  · intro h
    rw [hfilter] at h
    have := List.of_mem_filter h
    simp at this

/-- Witness for C5 at a concrete dump (a duplicate-signature pair, a nil
entry) and a one-record snapshot. -/
theorem darwinList_intersection_witness :
    darwinList [some ⟨[7], "aa"⟩, none, some ⟨[7], "aa"⟩, some ⟨[8], "bb"⟩]
        [⟨"aa", emptyName, zeroTime, [], 0⟩] =
      (readInstalledCerts [some ⟨[7], "aa"⟩, none, some ⟨[7], "aa"⟩,
          some ⟨[8], "bb"⟩]).filter
        (fun x => x.isSome &&
          trustItemsContains [⟨"aa", emptyName, zeroTime, [], 0⟩] x) ∧
    (∀ x ∈ readInstalledCerts [some ⟨[7], "aa"⟩, none, some ⟨[7], "aa"⟩,
        some ⟨[8], "bb"⟩], ∃ c, x = some c ∧
        some c ∈ [some (⟨[7], "aa"⟩ : Certificate), none, some ⟨[7], "aa"⟩,
          some ⟨[8], "bb"⟩]) ∧
    (∀ c : Certificate, some c ∈ [some (⟨[7], "aa"⟩ : Certificate), none,
        some ⟨[7], "aa"⟩, some ⟨[8], "bb"⟩] →
      ∃ c2, some c2 ∈ readInstalledCerts [some ⟨[7], "aa"⟩, none,
          some ⟨[7], "aa"⟩, some ⟨[8], "bb"⟩] ∧
        c2.signature = c.signature) ∧
    (readInstalledCerts [some ⟨[7], "aa"⟩, none, some ⟨[7], "aa"⟩,
        some ⟨[8], "bb"⟩]).Pairwise
      (fun a b => ∀ ca cb, a = some ca → b = some cb →
        ¬ ca.signature = cb.signature) ∧
    trustItemsContains [⟨"aa", emptyName, zeroTime, [], 0⟩] none = true ∧
    none ∉ darwinList [some ⟨[7], "aa"⟩, none, some ⟨[7], "aa"⟩,
        some ⟨[8], "bb"⟩] [⟨"aa", emptyName, zeroTime, [], 0⟩] :=
  darwinList_intersection
    [some ⟨[7], "aa"⟩, none, some ⟨[7], "aa"⟩, some ⟨[8], "bb"⟩]
    [⟨"aa", emptyName, zeroTime, [], 0⟩]

/-- Digit characters round-trip through digitVal. -/
theorem digitVal_digitChar (d : Nat) (h : d < 10) :
    digitVal (digitChar d) = some d := by
  interval_cases d <;> rfl

/-- No month has more than thirty-one days. -/
theorem daysInMonth_le_31 (y m : Nat) : daysInMonth y m ≤ 31 := by
  unfold daysInMonth
  split <;> first | omega | (split <;> omega)

/-- Parsing inverts formatting for in-range timestamps up to year 9999. -/
theorem parse_format_date (t : DateTime) (h1 : 1 ≤ t.month) (h2 : t.month ≤ 12)
    (h3 : 1 ≤ t.day) (h4 : t.day ≤ daysInMonth t.year t.month)
    (h5 : t.hour ≤ 23) (h6 : t.minute ≤ 59) (h7 : t.second ≤ 59)
    (h8 : t.year ≤ 9999) :
    parsePlistDate (formatPlistDate t) = some t := by
  obtain ⟨y, mo, d, h, mi, s⟩ := t
  simp only at h1 h2 h3 h4 h5 h6 h7 h8
  have hd31 : d ≤ 31 := le_trans h4 (daysInMonth_le_31 y mo)
  have e1 := digitVal_digitChar (y / 1000 % 10) (by omega)
  have e2 := digitVal_digitChar (y / 100 % 10) (by omega)
  have e3 := digitVal_digitChar (y / 10 % 10) (by omega)
  have e4 := digitVal_digitChar (y % 10) (by omega)
  have e5 := digitVal_digitChar (mo / 10 % 10) (by omega)
  have e6 := digitVal_digitChar (mo % 10) (by omega)
  have e7 := digitVal_digitChar (d / 10 % 10) (by omega)
  have e8 := digitVal_digitChar (d % 10) (by omega)
  have e9 := digitVal_digitChar (h / 10 % 10) (by omega)
  have e10 := digitVal_digitChar (h % 10) (by omega)
  have e11 := digitVal_digitChar (mi / 10 % 10) (by omega)
  have e12 := digitVal_digitChar (mi % 10) (by omega)
  have e13 := digitVal_digitChar (s / 10 % 10) (by omega)
  have e14 := digitVal_digitChar (s % 10) (by omega)
  have hy : (y / 1000 % 10 * 10 + y / 100 % 10) * 100 +
      (y / 10 % 10 * 10 + y % 10) = y := by
    have hlt : y / 1000 < 10 := by omega
    rw [Nat.mod_eq_of_lt hlt]
    omega
  have hmo : mo / 10 % 10 * 10 + mo % 10 = mo := by omega
  have hd : d / 10 % 10 * 10 + d % 10 = d := by omega
  have hh : h / 10 % 10 * 10 + h % 10 = h := by omega
  have hmi : mi / 10 % 10 * 10 + mi % 10 = mi := by omega
  have hs : s / 10 % 10 * 10 + s % 10 = s := by omega
  simp only [formatPlistDate, pad4, pad2, List.cons_append, List.nil_append]
  simp only [parsePlistDate, read4, read2, e1, e2, e3, e4, e5, e6, e7, e8, e9,
    e10, e11, e12, e13, e14, Option.bind_eq_bind, Option.some_bind,
    List.isEmpty_nil, decide_True, Bool.and_true, Bool.and_self]
  simp only [hy, hmo, hd, hh, hmi, hs]
  have hcond : (1 ≤ mo && mo ≤ 12 && 1 ≤ d && d ≤ daysInMonth y mo &&
      h ≤ 23 && mi ≤ 59 && s ≤ 59) = true := by
    simp only [Bool.and_eq_true, decide_eq_true_eq]
    omega
  simp [hcond]

/-- Alphabet characters round-trip through the index lookup. -/
theorem b64Index_b64Char : ∀ n, n < 64 → b64Index (b64Char n) = some n := by
  decide

/-- Alphabet characters are in the kept set, and are neither padding nor
markup. -/
theorem b64Char_facts : ∀ n, n < 64 → isB64Alphabet (b64Char n) = true ∧
    ¬ b64Char n = '=' ∧ ¬ b64Char n = '<' := by
  decide

/-- Every character of a base64 encoding of bytes is in the kept set. -/
theorem base64Encode_alphabet :
    ∀ bs : List Nat, (∀ b ∈ bs, b < 256) →
      ∀ c ∈ base64Encode bs, isB64Alphabet c = true
  | [], _, c, hc => absurd hc (List.not_mem_nil _)
  | [b1], h, c, hc => by
    have hb1 := h b1 (List.mem_singleton_self _)
    simp only [base64Encode, List.mem_cons, List.not_mem_nil, or_false] at hc
    rcases hc with rfl | rfl | rfl | rfl
    · exact (b64Char_facts _ (by omega)).1
    · exact (b64Char_facts _ (by omega)).1
    · decide
    · decide
  | [b1, b2], h, c, hc => by
    have hb1 := h b1 (by simp)
    have hb2 := h b2 (by simp)
    simp only [base64Encode, List.mem_cons, List.not_mem_nil, or_false] at hc
    rcases hc with rfl | rfl | rfl | rfl
    · exact (b64Char_facts _ (by omega)).1
    · exact (b64Char_facts _ (by omega)).1
    · exact (b64Char_facts _ (by omega)).1
    · decide
  | b1 :: b2 :: b3 :: (rest : List Nat), h, c, hc => by
    have hb1 := h b1 (by simp)
    have hb2 := h b2 (by simp)
    have hb3 := h b3 (by simp)
    simp only [base64Encode, List.mem_cons] at hc
    rcases hc with rfl | rfl | rfl | rfl | hc
    · exact (b64Char_facts _ (by omega)).1
    · exact (b64Char_facts _ (by omega)).1
    · exact (b64Char_facts _ (by omega)).1
    · exact (b64Char_facts _ (by omega)).1
    · exact base64Encode_alphabet rest (fun b hb => h b (by simp [hb])) c hc

/-- Characters of the kept set are not markup. -/
theorem b64Alphabet_not_lt (c : Char) (h : isB64Alphabet c = true) :
    ¬ c = '<' := by
  intro hc
  subst hc
  simp [isB64Alphabet] at h

/-- The cleanup in convertToTrustItems leaves pure base64 text unchanged. -/
theorem strip_of_alphabet (s : List Char)
    (h : ∀ c ∈ s, isB64Alphabet c = true) : stripForBase64 s = s := by
  unfold stripForBase64
  rw [List.filter_eq_self.mpr h]
  apply List.filter_eq_self.mpr
  intro c hc
  have ha := h c hc
  by_cases h9 : c = Char.ofNat 9
  · subst h9; simp [isB64Alphabet] at ha
  by_cases h10 : c = Char.ofNat 10
  · subst h10; simp [isB64Alphabet] at ha
  by_cases h32 : c = ' '
  · subst h32; simp [isB64Alphabet] at ha
  by_cases h13 : c = Char.ofNat 13
  · subst h13; simp [isB64Alphabet] at ha
  simp [h9, h10, h32, h13]

/-- Decoding inverts encoding on byte-valued input. -/
theorem base64_roundtrip :
    ∀ bs : List Nat, (∀ b ∈ bs, b < 256) →
      base64DecodeGo (base64Encode bs) = (bs, true)
  | [], _ => rfl
  | [b1], h => by
    have hb1 := h b1 (List.mem_singleton_self _)
    simp only [base64Encode, base64DecodeGo,
      b64Index_b64Char (b1 / 4) (by omega),
      b64Index_b64Char (b1 % 4 * 16) (by omega)]
    have e1 : b1 / 4 * 4 + b1 % 4 * 16 / 16 = b1 := by omega
    simp [e1]
    omega
  | [b1, b2], h => by
    have hb1 := h b1 (by simp)
    have hb2 := h b2 (by simp)
    simp only [base64Encode, base64DecodeGo,
      b64Index_b64Char (b1 / 4) (by omega),
      b64Index_b64Char (b1 % 4 * 16 + b2 / 16) (by omega),
      if_neg (b64Char_facts (b2 % 16 * 4) (by omega)).2.1,
      b64Index_b64Char (b2 % 16 * 4) (by omega)]
    have e1 : b1 / 4 * 4 + (b1 % 4 * 16 + b2 / 16) / 16 = b1 := by omega
    have e2 : (b1 % 4 * 16 + b2 / 16) % 16 * 16 + b2 % 16 * 4 / 4 = b2 := by omega
    simp [e1, e2]
    omega
  | b1 :: b2 :: b3 :: (rest : List Nat), h => by
    have hb1 := h b1 (by simp)
    have hb2 := h b2 (by simp)
    have hb3 := h b3 (by simp)
    have ih := base64_roundtrip rest (fun b hb => h b (by simp [hb]))
    simp only [base64Encode, base64DecodeGo,
      b64Index_b64Char (b1 / 4) (by omega),
      b64Index_b64Char (b1 % 4 * 16 + b2 / 16) (by omega),
      if_neg (b64Char_facts (b2 % 16 * 4 + b3 / 64) (by omega)).2.1,
      b64Index_b64Char (b2 % 16 * 4 + b3 / 64) (by omega),
      if_neg (b64Char_facts (b3 % 64) (by omega)).2.1,
      b64Index_b64Char (b3 % 64) (by omega), ih]
    have e1 : b1 / 4 * 4 + (b1 % 4 * 16 + b2 / 16) / 16 = b1 := by omega
    have e2 : (b1 % 4 * 16 + b2 / 16) % 16 * 16 + (b2 % 16 * 4 + b3 / 64) / 4 = b2 := by
      omega
    have e3 : (b2 % 16 * 4 + b3 / 64) % 4 * 64 + b3 % 64 = b3 := by omega
    rw [e1, e2, e3]

/-- Base-256 digits of zero, at any fuel. -/
theorem b256core_zero : ∀ f, b256core f 0 = [0] := by
  intro f
  cases f <;> simp [b256core]

/-- The fuel of b256core is irrelevant once it covers the value. -/
theorem b256core_congr : ∀ f1 f2 n, n ≤ f1 → n ≤ f2 →
    b256core f1 n = b256core f2 n
  | 0, f2, n, h1, _ => by
    have : n = 0 := by omega
    subst this
    rw [b256core_zero, b256core_zero]
  | g + 1, f2, n, h1, h2 => by
    by_cases hn : n < 256
    · cases f2 with
      | zero =>
        have : n = 0 := by omega
        subst this
        rw [b256core_zero, b256core_zero]
      | succ k => simp [b256core, hn]
    · cases f2 with
      | zero => omega
      | succ k =>
        simp only [b256core, if_neg hn]
        rw [b256core_congr g k (n / 256) (by omega) (by omega)]

/-- The defining recurrence of base256. -/
theorem base256_rec (n : Nat) :
    base256 n = if n < 256 then [n] else base256 (n / 256) ++ [n % 256] := by
  unfold base256
  cases n with
  | zero => simp [b256core]
  | succ m =>
    by_cases hn : m + 1 < 256
    · simp [b256core, hn]
    · simp only [b256core, if_neg hn]
      rw [b256core_congr m ((m + 1) / 256) ((m + 1) / 256) (by omega) (le_refl _)]

/-- Base-256 digit lists are nonempty. -/
theorem base256_len_pos (n : Nat) : 0 < (base256 n).length := by
  rw [base256_rec]
  split <;> simp

/-- Folding the digits back recovers the value. -/
theorem base256_foldl (n : Nat) : ∀ acc,
    List.foldl (fun a d => a * 256 + d) acc (base256 n) =
      acc * 256 ^ (base256 n).length + n := by
  induction n using Nat.strong_induction_on with
  | _ n ih =>
    intro acc
    rw [base256_rec]
    by_cases hn : n < 256
    · simp [hn]
    · simp only [if_neg hn, List.foldl_append, List.length_append,
        List.foldl_cons, List.foldl_nil, List.length_cons, List.length_nil]
      rw [ih (n / 256) (by omega) acc]
      have hexp : (base256 (n / 256)).length + (0 + 1) =
          (base256 (n / 256)).length + 1 := by omega
      rw [hexp, pow_succ]
      have hdm := Nat.div_add_mod n 256
      calc (acc * 256 ^ (base256 (n / 256)).length + n / 256) * 256 + n % 256
          = acc * (256 ^ (base256 (n / 256)).length * 256) +
            (256 * (n / 256) + n % 256) := by ring
        _ = acc * (256 ^ (base256 (n / 256)).length * 256) + n := by rw [hdm]

/-- Decoding a length inverts encoding it, at any payload. -/
theorem decLen_encLen (n : Nat) (rest : List Nat) :
    decLen (encLen n ++ rest) = some (n, rest) := by
  unfold encLen
  by_cases hn : n < 128
  · simp [decLen, hn]
  · have hL := base256_len_pos n
    have h1 : ¬ 128 + (base256 n).length < 128 := by omega
    have hk : 128 + (base256 n).length - 128 = (base256 n).length := by omega
    have h2 : ¬ (base256 n).length = 0 := by omega
    have h3 : ¬ (base256 n ++ rest).length < (base256 n).length := by
      simp only [List.length_append]
      omega
    simp only [if_neg hn, List.cons_append, decLen, if_neg h1, hk, if_neg h2,
      if_neg h3, List.take_left, List.drop_left, base256_foldl n 0]
    simp

/-- Reading a tagged element inverts writing one, at any payload. -/
theorem readTag_exact (t : Nat) (body rest : List Nat) :
    readTag t ((t :: (encLen body.length ++ body)) ++ rest) = some (body, rest) := by
  have h1 : decLen (encLen body.length ++ (body ++ rest)) =
      some (body.length, body ++ rest) := decLen_encLen _ _
  have h2 : ¬ (body ++ rest).length < body.length := by
    simp only [List.length_append]
    omega
  simp only [List.cons_append, List.append_assoc, readTag, if_pos rfl, h1,
    if_neg h2, List.take_left, List.drop_left]
  simp

/-- Single-byte arcs encode to themselves. -/
theorem base128_small (a : Nat) (h : a < 128) : base128 a = [a] := by
  unfold base128
  cases a with
  | zero => rfl
  | succ m => simp [b128core, h]

/-- Parsing inverts encoding for the 2.5.4.x identifiers of pkix.Name. -/
theorem parseOID_std (k : Nat) (hk : k < 128) (rest : List Nat) :
    parseOIDElem (encOID [2, 5, 4, k] ++ rest) = some ([2, 5, 4, k], rest) := by
  have h85 : base128 (40 * 2 + 5) = [85] := by decide
  have h4 : base128 4 = [4] := by decide
  have hkk : base128 k = [k] := base128_small k hk
  have hbody : encOID [2, 5, 4, k] = 6 :: (encLen 3 ++ [85, 4, k]) := by
    simp [encOID, h85, h4, hkk]
  have hlen : ([85, 4, k] : List Nat).length = 3 := rfl
  have hread : readTag 6 ((6 :: (encLen 3 ++ [85, 4, k])) ++ rest) =
      some ([85, 4, k], rest) := by
    have := readTag_exact 6 [85, 4, k] rest
    rwa [hlen] at this
  simp only [parseOIDElem, hbody, hread]
  simp [decBase128Aux, decArcs, hk]

/-- Parsing inverts encoding for ASCII string values. -/
theorem parseString_encString (s : String) (h : ∀ c ∈ s.data, c.toNat < 128)
    (rest : List Nat) :
    parseStringElem (encString s ++ rest) = some (s, rest) := by
  have hall : ((s.data.map Char.toNat).all (fun b => decide (b < 128))) = true := by
    rw [List.all_eq_true]
    intro b hb
    obtain ⟨c, hc, rfl⟩ := List.mem_map.mp hb
    simpa using h c hc
  have hback : (s.data.map Char.toNat).map Char.ofNat = s.data := by
    rw [List.map_map]
    have hco : (Char.ofNat ∘ Char.toNat) = id := by
      funext c
      exact Char.ofNat_toNat c
    rw [hco, List.map_id]
  have key : ∀ tag : Nat, ((tag = 19 || tag = 12) = true) →
      parseStringElem ((tag :: (encLen (s.data.map Char.toNat).length ++
        s.data.map Char.toNat)) ++ rest) = some (s, rest) := by
    intro tag htag
    have hread := readTag_exact tag (s.data.map Char.toNat) rest
    simp only [List.cons_append, List.append_assoc] at hread ⊢
    simp only [parseStringElem, htag, if_true, hread, hall, if_pos, hback]
  unfold encString
  by_cases hp : s.data.all isPrintableChar
  · simp only [if_pos hp]
    exact key 19 (by decide)
  · simp only [if_neg hp]
    exact key 12 (by decide)

/-- Parsing inverts encoding for one attribute with a standard identifier
and ASCII value. -/
theorem parseATV_enc (atv : AttributeTypeAndValue)
    (hoid : ∃ k, k < 128 ∧ atv.Typ = [2, 5, 4, k])
    (hval : ∀ c ∈ atv.Value.data, c.toNat < 128) (rest : List Nat) :
    parseATV (encATV atv ++ rest) = some (atv, rest) := by
  obtain ⟨k, hk, htyp⟩ := hoid
  have hread := readTag_exact 48 (encOID atv.Typ ++ encString atv.Value) rest
  have hoidp : parseOIDElem (encOID atv.Typ ++ encString atv.Value) =
      some (atv.Typ, encString atv.Value) := by
    rw [htyp]
    exact parseOID_std k hk _
  have hstr : parseStringElem (encString atv.Value ++ []) =
      some (atv.Value, []) := parseString_encString _ hval []
  rw [List.append_nil] at hstr
  simp only [encATV, parseATV, hread, hoidp, hstr]
  cases atv
  simp

/-- Parsing a concatenation of encoded elements with enough fuel recovers
the list, for any single-element parser that inverts the encoder. -/
theorem parseMany_concat {α : Type} (p : List Nat → Option (α × List Nat))
    (enc : α → List Nat) :
    ∀ (xs : List α) (fuel : Nat),
      (∀ x ∈ xs, ∀ r, p (enc x ++ r) = some (x, r)) →
      (∀ x ∈ xs, enc x ≠ []) →
      xs.length ≤ fuel →
      parseMany p fuel ((xs.map enc).flatten) = some xs
  | [], fuel, _, _, _ => by
    cases fuel <;> rfl
  | x :: xs, fuel, hp, hne, hf => by
    obtain ⟨b, bs, hbs⟩ := List.exists_cons_of_ne_nil (hne x (List.mem_cons_self _ _))
    cases fuel with
    | zero =>
      simp only [List.length_cons] at hf
      omega
    | succ f =>
      have hflat : ((x :: xs).map enc).flatten = enc x ++ (xs.map enc).flatten := by
        simp
      have hcons : enc x ++ (xs.map enc).flatten =
          b :: (bs ++ (xs.map enc).flatten) := by
        rw [hbs]
        rfl
      have hx := hp x (List.mem_cons_self _ _) ((xs.map enc).flatten)
      have ih := parseMany_concat p enc xs f
        (fun y hy => hp y (List.mem_cons_of_mem _ hy))
        (fun y hy => hne y (List.mem_cons_of_mem _ hy)) (by simpa using hf)
      rw [hflat, hcons]
      simp only [parseMany]
      rw [← hcons, hx]
      simp only [ih]

/-- Nonempty encodings make the flattened byte count at least the element
count. -/
theorem flatten_length_ge {α : Type} (enc : α → List Nat) :
    ∀ xs : List α, (∀ x ∈ xs, enc x ≠ []) →
      xs.length ≤ ((xs.map enc).flatten).length
  | [], _ => by simp
  | x :: xs, h => by
    obtain ⟨b, bs, hbs⟩ := List.exists_cons_of_ne_nil (h x (List.mem_cons_self _ _))
    have ih := flatten_length_ge enc xs (fun y hy => h y (List.mem_cons_of_mem _ hy))
    simp only [List.map_cons, List.flatten_cons, List.length_cons,
      List.length_append, hbs]
    omega

/-- Attribute encodings are never empty. -/
theorem encATV_ne_nil (atv : AttributeTypeAndValue) : encATV atv ≠ [] := by
  simp [encATV]

/-- Set encodings are never empty. -/
theorem encRDN_ne_nil (rdn : List AttributeTypeAndValue) : encRDN rdn ≠ [] := by
  simp [encRDN]

/-- Parsing inverts encoding for one relative distinguished name whose
attributes have standard identifiers and ASCII values. -/
theorem parseRDN_enc (rdn : List AttributeTypeAndValue)
    (hoid : ∀ atv ∈ rdn, ∃ k, k < 128 ∧ atv.Typ = [2, 5, 4, k])
    (hval : ∀ atv ∈ rdn, ∀ c ∈ atv.Value.data, c.toNat < 128)
    (rest : List Nat) :
    parseRDN (encRDN rdn ++ rest) = some (rdn, rest) := by
  have hread := readTag_exact 49 ((rdn.map encATV).flatten) rest
  have hmany : parseMany parseATV ((rdn.map encATV).flatten).length
      ((rdn.map encATV).flatten) = some rdn :=
    parseMany_concat parseATV encATV rdn _
      (fun atv ha r => parseATV_enc atv (hoid atv ha) (hval atv ha) r)
      (fun atv _ => encATV_ne_nil atv)
      (flatten_length_ge encATV rdn (fun atv _ => encATV_ne_nil atv))
  simp only [encRDN, parseRDN, hread, hmany]

/-- Go asn1.Unmarshal inverts asn1.Marshal on sequences whose attributes
have standard identifiers and ASCII values. -/
theorem asn1_roundtrip (seq : RDNSequence)
    (hoid : ∀ rdn ∈ seq, ∀ atv ∈ rdn, ∃ k, k < 128 ∧ atv.Typ = [2, 5, 4, k])
    (hval : ∀ rdn ∈ seq, ∀ atv ∈ rdn, ∀ c ∈ atv.Value.data, c.toNat < 128) :
    asn1Unmarshal (asn1Marshal seq) = some seq := by
  have hread := readTag_exact 48 ((seq.map encRDN).flatten) []
  rw [List.append_nil] at hread
  have hmany : parseMany parseRDN ((seq.map encRDN).flatten).length
      ((seq.map encRDN).flatten) = some seq :=
    parseMany_concat parseRDN encRDN seq _
      (fun rdn hr r => parseRDN_enc rdn (hoid rdn hr) (hval rdn hr) r)
      (fun rdn _ => encRDN_ne_nil rdn)
      (flatten_length_ge encRDN seq (fun rdn _ => encRDN_ne_nil rdn))
  simp only [asn1Marshal, asn1Unmarshal, hread, hmany]

/-- Filling from a run of Country attributes appends the values. -/
theorem fill_rdn_country : ∀ (vals : List String) (n0 : PkixName),
    List.foldl fillFromATV n0
        (vals.map fun v => (⟨[2, 5, 4, 6], v⟩ : AttributeTypeAndValue)) =
      { n0 with
        Country := n0.Country ++ vals,
        Names := n0.Names ++
          vals.map fun v => (⟨[2, 5, 4, 6], v⟩ : AttributeTypeAndValue) }
  | [], n0 => by simp
  | v :: vs, n0 => by
    have ih := fill_rdn_country vs (fillFromATV n0 ⟨[2, 5, 4, 6], v⟩)
    simp only [List.map_cons, List.foldl_cons, ih]
    simp [fillFromATV]

/-- Folding the Country piece of a sequence appends the values. -/
theorem fold_piece_country (vals : List String) (n0 : PkixName) :
    List.foldl (fun n rdn => if rdn.isEmpty then n else rdn.foldl fillFromATV n) n0
      (rdnPiece vals [2, 5, 4, 6]) =
      { n0 with
        Country := n0.Country ++ vals,
        Names := n0.Names ++ (rdnPiece vals [2, 5, 4, 6]).flatten } := by
  cases vals with
  | nil => simp [rdnPiece]
  | cons v vs =>
    simp only [rdnPiece, List.isEmpty_cons, Bool.false_eq_true, if_false,
      List.foldl_cons, List.foldl_nil, List.map_cons, List.flatten_cons,
      List.flatten_nil, List.append_nil]
    simpa using fill_rdn_country (v :: vs) n0

/-- Filling from a run of Organization attributes appends the values. -/
theorem fill_rdn_organization : ∀ (vals : List String) (n0 : PkixName),
    List.foldl fillFromATV n0
        (vals.map fun v => (⟨[2, 5, 4, 10], v⟩ : AttributeTypeAndValue)) =
      { n0 with
        Organization := n0.Organization ++ vals,
        Names := n0.Names ++
          vals.map fun v => (⟨[2, 5, 4, 10], v⟩ : AttributeTypeAndValue) }
  | [], n0 => by simp
  | v :: vs, n0 => by
    have ih := fill_rdn_organization vs (fillFromATV n0 ⟨[2, 5, 4, 10], v⟩)
    simp only [List.map_cons, List.foldl_cons, ih]
    simp [fillFromATV]

/-- Folding the Organization piece of a sequence appends the values. -/
theorem fold_piece_organization (vals : List String) (n0 : PkixName) :
    List.foldl (fun n rdn => if rdn.isEmpty then n else rdn.foldl fillFromATV n) n0
      (rdnPiece vals [2, 5, 4, 10]) =
      { n0 with
        Organization := n0.Organization ++ vals,
        Names := n0.Names ++ (rdnPiece vals [2, 5, 4, 10]).flatten } := by
  cases vals with
  | nil => simp [rdnPiece]
  | cons v vs =>
    simp only [rdnPiece, List.isEmpty_cons, Bool.false_eq_true, if_false,
      List.foldl_cons, List.foldl_nil, List.map_cons, List.flatten_cons,
      List.flatten_nil, List.append_nil]
    simpa using fill_rdn_organization (v :: vs) n0

/-- Filling from a run of OrganizationalUnit attributes appends the values. -/
theorem fill_rdn_organizational_unit : ∀ (vals : List String) (n0 : PkixName),
    List.foldl fillFromATV n0
        (vals.map fun v => (⟨[2, 5, 4, 11], v⟩ : AttributeTypeAndValue)) =
      { n0 with
        OrganizationalUnit := n0.OrganizationalUnit ++ vals,
        Names := n0.Names ++
          vals.map fun v => (⟨[2, 5, 4, 11], v⟩ : AttributeTypeAndValue) }
  | [], n0 => by simp
  | v :: vs, n0 => by
    have ih := fill_rdn_organizational_unit vs (fillFromATV n0 ⟨[2, 5, 4, 11], v⟩)
    simp only [List.map_cons, List.foldl_cons, ih]
    simp [fillFromATV]

/-- Folding the OrganizationalUnit piece of a sequence appends the values. -/
theorem fold_piece_organizational_unit (vals : List String) (n0 : PkixName) :
    List.foldl (fun n rdn => if rdn.isEmpty then n else rdn.foldl fillFromATV n) n0
      (rdnPiece vals [2, 5, 4, 11]) =
      { n0 with
        OrganizationalUnit := n0.OrganizationalUnit ++ vals,
        Names := n0.Names ++ (rdnPiece vals [2, 5, 4, 11]).flatten } := by
  cases vals with
  | nil => simp [rdnPiece]
  | cons v vs =>
    simp only [rdnPiece, List.isEmpty_cons, Bool.false_eq_true, if_false,
      List.foldl_cons, List.foldl_nil, List.map_cons, List.flatten_cons,
      List.flatten_nil, List.append_nil]
    simpa using fill_rdn_organizational_unit (v :: vs) n0

/-- Filling from a run of Locality attributes appends the values. -/
theorem fill_rdn_locality : ∀ (vals : List String) (n0 : PkixName),
    List.foldl fillFromATV n0
        (vals.map fun v => (⟨[2, 5, 4, 7], v⟩ : AttributeTypeAndValue)) =
      { n0 with
        Locality := n0.Locality ++ vals,
        Names := n0.Names ++
          vals.map fun v => (⟨[2, 5, 4, 7], v⟩ : AttributeTypeAndValue) }
  | [], n0 => by simp
  | v :: vs, n0 => by
    have ih := fill_rdn_locality vs (fillFromATV n0 ⟨[2, 5, 4, 7], v⟩)
    simp only [List.map_cons, List.foldl_cons, ih]
    simp [fillFromATV]

/-- Folding the Locality piece of a sequence appends the values. -/
theorem fold_piece_locality (vals : List String) (n0 : PkixName) :
    List.foldl (fun n rdn => if rdn.isEmpty then n else rdn.foldl fillFromATV n) n0
      (rdnPiece vals [2, 5, 4, 7]) =
      { n0 with
        Locality := n0.Locality ++ vals,
        Names := n0.Names ++ (rdnPiece vals [2, 5, 4, 7]).flatten } := by
  cases vals with
  | nil => simp [rdnPiece]
  | cons v vs =>
    simp only [rdnPiece, List.isEmpty_cons, Bool.false_eq_true, if_false,
      List.foldl_cons, List.foldl_nil, List.map_cons, List.flatten_cons,
      List.flatten_nil, List.append_nil]
    simpa using fill_rdn_locality (v :: vs) n0

/-- Filling from a run of Province attributes appends the values. -/
theorem fill_rdn_province : ∀ (vals : List String) (n0 : PkixName),
    List.foldl fillFromATV n0
        (vals.map fun v => (⟨[2, 5, 4, 8], v⟩ : AttributeTypeAndValue)) =
      { n0 with
        Province := n0.Province ++ vals,
        Names := n0.Names ++
          vals.map fun v => (⟨[2, 5, 4, 8], v⟩ : AttributeTypeAndValue) }
  | [], n0 => by simp
  | v :: vs, n0 => by
    have ih := fill_rdn_province vs (fillFromATV n0 ⟨[2, 5, 4, 8], v⟩)
    simp only [List.map_cons, List.foldl_cons, ih]
    simp [fillFromATV]

/-- Folding the Province piece of a sequence appends the values. -/
theorem fold_piece_province (vals : List String) (n0 : PkixName) :
    List.foldl (fun n rdn => if rdn.isEmpty then n else rdn.foldl fillFromATV n) n0
      (rdnPiece vals [2, 5, 4, 8]) =
      { n0 with
        Province := n0.Province ++ vals,
        Names := n0.Names ++ (rdnPiece vals [2, 5, 4, 8]).flatten } := by
  cases vals with
  | nil => simp [rdnPiece]
  | cons v vs =>
    simp only [rdnPiece, List.isEmpty_cons, Bool.false_eq_true, if_false,
      List.foldl_cons, List.foldl_nil, List.map_cons, List.flatten_cons,
      List.flatten_nil, List.append_nil]
    simpa using fill_rdn_province (v :: vs) n0

/-- Filling from a run of StreetAddress attributes appends the values. -/
theorem fill_rdn_street_address : ∀ (vals : List String) (n0 : PkixName),
    List.foldl fillFromATV n0
        (vals.map fun v => (⟨[2, 5, 4, 9], v⟩ : AttributeTypeAndValue)) =
      { n0 with
        StreetAddress := n0.StreetAddress ++ vals,
        Names := n0.Names ++
          vals.map fun v => (⟨[2, 5, 4, 9], v⟩ : AttributeTypeAndValue) }
  | [], n0 => by simp
  | v :: vs, n0 => by
    have ih := fill_rdn_street_address vs (fillFromATV n0 ⟨[2, 5, 4, 9], v⟩)
    simp only [List.map_cons, List.foldl_cons, ih]
    simp [fillFromATV]

/-- Folding the StreetAddress piece of a sequence appends the values. -/
theorem fold_piece_street_address (vals : List String) (n0 : PkixName) :
    List.foldl (fun n rdn => if rdn.isEmpty then n else rdn.foldl fillFromATV n) n0
      (rdnPiece vals [2, 5, 4, 9]) =
      { n0 with
        StreetAddress := n0.StreetAddress ++ vals,
        Names := n0.Names ++ (rdnPiece vals [2, 5, 4, 9]).flatten } := by
  cases vals with
  | nil => simp [rdnPiece]
  | cons v vs =>
    simp only [rdnPiece, List.isEmpty_cons, Bool.false_eq_true, if_false,
      List.foldl_cons, List.foldl_nil, List.map_cons, List.flatten_cons,
      List.flatten_nil, List.append_nil]
    simpa using fill_rdn_street_address (v :: vs) n0

/-- Filling from a run of PostalCode attributes appends the values. -/
theorem fill_rdn_postal_code : ∀ (vals : List String) (n0 : PkixName),
    List.foldl fillFromATV n0
        (vals.map fun v => (⟨[2, 5, 4, 17], v⟩ : AttributeTypeAndValue)) =
      { n0 with
        PostalCode := n0.PostalCode ++ vals,
        Names := n0.Names ++
          vals.map fun v => (⟨[2, 5, 4, 17], v⟩ : AttributeTypeAndValue) }
  | [], n0 => by simp
  | v :: vs, n0 => by
    have ih := fill_rdn_postal_code vs (fillFromATV n0 ⟨[2, 5, 4, 17], v⟩)
    simp only [List.map_cons, List.foldl_cons, ih]
    simp [fillFromATV]

/-- Folding the PostalCode piece of a sequence appends the values. -/
theorem fold_piece_postal_code (vals : List String) (n0 : PkixName) :
    List.foldl (fun n rdn => if rdn.isEmpty then n else rdn.foldl fillFromATV n) n0
      (rdnPiece vals [2, 5, 4, 17]) =
      { n0 with
        PostalCode := n0.PostalCode ++ vals,
        Names := n0.Names ++ (rdnPiece vals [2, 5, 4, 17]).flatten } := by
  cases vals with
  | nil => simp [rdnPiece]
  | cons v vs =>
    simp only [rdnPiece, List.isEmpty_cons, Bool.false_eq_true, if_false,
      List.foldl_cons, List.foldl_nil, List.map_cons, List.flatten_cons,
      List.flatten_nil, List.append_nil]
    simpa using fill_rdn_postal_code (v :: vs) n0

/-- Folding the SerialNumber piece sets the field when present. -/
theorem fold_piece_serial (s : String) (n0 : PkixName) :
    List.foldl (fun n rdn => if rdn.isEmpty then n else rdn.foldl fillFromATV n) n0
      (singlePiece s [2, 5, 4, 5]) =
      { n0 with
        SerialNumber := if 0 < s.length then s else n0.SerialNumber,
        Names := n0.Names ++ (singlePiece s [2, 5, 4, 5]).flatten } := by
  by_cases h : 0 < s.length
  · simp only [singlePiece, if_pos h, List.foldl_cons, List.foldl_nil,
      List.flatten_cons, List.flatten_nil, List.append_nil]
    rw [if_neg (by simp)]
    simp [fillFromATV]
  · simp [singlePiece, h]

/-- Folding the CommonName piece sets the field when present. -/
theorem fold_piece_common (s : String) (n0 : PkixName) :
    List.foldl (fun n rdn => if rdn.isEmpty then n else rdn.foldl fillFromATV n) n0
      (singlePiece s [2, 5, 4, 3]) =
      { n0 with
        CommonName := if 0 < s.length then s else n0.CommonName,
        Names := n0.Names ++ (singlePiece s [2, 5, 4, 3]).flatten } := by
  by_cases h : 0 < s.length
  · simp only [singlePiece, if_pos h, List.foldl_cons, List.foldl_nil,
      List.flatten_cons, List.flatten_nil, List.append_nil]
    rw [if_neg (by simp)]
    simp [fillFromATV]
  · simp [singlePiece, h]

/-- appendRDNs under empty ExtraNames appends the field piece. -/
theorem appendRDNs_eq (n : PkixName) (hE : n.ExtraNames = [])
    (ret : RDNSequence) (vals : List String) (oid : List Nat) :
    appendRDNs n ret vals oid = ret ++ rdnPiece vals oid := by
  unfold appendRDNs oidInAttributeTypeAndValues rdnPiece
  rw [hE]
  simp only [List.any_nil, Bool.or_false]
  by_cases hv : vals.isEmpty <;> simp [hv]

/-- The sequence form of a name with empty ExtraNames is the concatenation
of its nine field pieces. -/
theorem toRDN_normal (n : PkixName) (hE : n.ExtraNames = []) :
    ToRDNSequence n =
      rdnPiece n.Country [2, 5, 4, 6] ++
      rdnPiece n.Organization [2, 5, 4, 10] ++
      rdnPiece n.OrganizationalUnit [2, 5, 4, 11] ++
      rdnPiece n.Locality [2, 5, 4, 7] ++
      rdnPiece n.Province [2, 5, 4, 8] ++
      rdnPiece n.StreetAddress [2, 5, 4, 9] ++
      rdnPiece n.PostalCode [2, 5, 4, 17] ++
      singlePiece n.SerialNumber [2, 5, 4, 5] ++
      singlePiece n.CommonName [2, 5, 4, 3] := by
  unfold ToRDNSequence
  rw [hE]
  simp only [List.map_nil, List.append_nil]
  simp only [appendRDNs_eq n hE]
  simp only [oidCountry, oidOrganization, oidOrganizationalUnit, oidLocality,
    oidProvince, oidStreetAddress, oidPostalCode, oidSerialNumber,
    oidCommonName]
  by_cases hs : 0 < n.SerialNumber.length <;>
    by_cases hc : 0 < n.CommonName.length <;>
    simp [hs, hc, singlePiece, rdnPiece, List.append_assoc]

/-- Empty strings have length zero. -/
theorem str_len_zero_eq_empty (s : String) (h : ¬ 0 < s.length) : s = "" := by
  cases s with
  | mk data =>
    cases data with
    | nil => rfl
    | cons c cs => simp [String.length] at h

/-- Refilling a well-formed name from its own sequence form recovers it. -/
theorem fillFrom_toRDN (n : PkixName) (hwf : wellFormedName n = true) :
    FillFromRDNSequence (ToRDNSequence n) = n := by
  simp only [wellFormedName, Bool.and_eq_true] at hwf
  obtain ⟨⟨hE0, hN0⟩, -⟩ := hwf
  have hE : n.ExtraNames = [] := by
    simpa [List.isEmpty_iff] using hE0
  have hN : n.Names = (ToRDNSequence n).flatten := by
    simpa using hN0
  rw [toRDN_normal n hE] at hN
  unfold FillFromRDNSequence
  rw [toRDN_normal n hE]
  simp only [List.foldl_append]
  rw [fold_piece_country, fold_piece_organization, fold_piece_organizational_unit,
    fold_piece_locality, fold_piece_province, fold_piece_street_address,
    fold_piece_postal_code, fold_piece_serial, fold_piece_common]
  obtain ⟨cs, og, ou, lo, pr, st, pc, sn, cn, nms, ens⟩ := n
  simp only at hE hN
  subst hE
  by_cases hs : 0 < sn.length <;> by_cases hc : 0 < cn.length
  · simp only [if_pos hs, if_pos hc, emptyName]
    rw [hN]
    simp [List.flatten_append, List.append_assoc]
  · have hcn := str_len_zero_eq_empty _ hc
    subst hcn
    simp only [if_pos hs, if_neg hc, emptyName]
    rw [hN]
    simp [List.flatten_append, List.append_assoc]
  · have hsn := str_len_zero_eq_empty _ hs
    subst hsn
    simp only [if_neg hs, if_pos hc, emptyName]
    rw [hN]
    simp [List.flatten_append, List.append_assoc]
  · have hcn := str_len_zero_eq_empty _ hc
    have hsn := str_len_zero_eq_empty _ hs
    subst hcn
    subst hsn
    simp only [if_neg hs, if_neg hc, emptyName]
    rw [hN]
    simp [List.flatten_append, List.append_assoc]

/-- String append distributes over the character lists. -/
theorem str_data_append (a b : String) : (a ++ b).data = a.data ++ b.data := rfl

/-- Scanning markup-free text accumulates it unchanged. -/
theorem lexGo_text : ∀ (s acc rest : List Char), (∀ c ∈ s, ¬ c = '<') →
    lexGo (s ++ rest) (.txt acc) = lexGo rest (.txt (acc ++ s))
  | [], acc, rest, _ => by simp
  | c :: cs, acc, rest, h => by
    have hc := h c (List.mem_cons_self _ _)
    simp only [List.cons_append, lexGo, if_neg hc, List.append_eq]
    rw [lexGo_text cs (acc ++ [c]) rest (fun x hx => h x (List.mem_cons_of_mem _ hx))]
    simp

/-- An opening angle bracket flushes the accumulated text. -/
theorem lexGo_langle (acc rest : List Char) :
    lexGo ('<' :: rest) (.txt acc) = chunkToks acc ++ lexGo rest (.tag []) := by
  by_cases h : acc.isEmpty <;> simp [lexGo, chunkToks, h]

/-- Scanning the serialized header produces its token run. -/
theorem lex_header (X : List Char) :
    lexGo ("<plist><dict><key>trustList</key><dict>".data ++ X) (.txt []) =
      [.tagOpen "plist".data, .tagOpen "dict".data, .tagOpen "key".data,
       .chunk "trustList".data, .tagClose "key".data, .tagOpen "dict".data] ++
      lexGo X (.txt []) := rfl

/-- Scanning the fragment from a fingerprint key to the issuer data produces
its token run, flushing pending text. -/
theorem lex_key_open (acc X : List Char) :
    lexGo ("<key>".data ++ X) (.txt acc) =
      chunkToks acc ++ ([.tagOpen "key".data] ++ lexGo X (.txt [])) := by
  have h : ("<key>".data ++ X) = '<' :: ("key>".data ++ X) := rfl
  rw [h, lexGo_langle]
  congr 1

/-- Scanning the serialized footer, which ends the document, produces its
token run. -/
theorem lex_footer (acc : List Char) :
    lexGo ("</dict>\n  <key>trustVersion</key>\n  <integer>1</integer>\n</dict></plist>".data) (.txt acc) =
      chunkToks acc ++
        [.tagClose "dict".data, .chunk "\n  ".data, .tagOpen "key".data,
         .chunk "trustVersion".data, .tagClose "key".data, .chunk "\n  ".data,
         .tagOpen "integer".data, .chunk "1".data, .tagClose "integer".data,
         .chunk "\n".data, .tagClose "dict".data, .tagClose "plist".data] := by
  have h : ("</dict>\n  <key>trustVersion</key>\n  <integer>1</integer>\n</dict></plist>".data) =
      '<' :: ("/dict>\n  <key>trustVersion</key>\n  <integer>1</integer>\n</dict></plist>".data ++ []) := by
    simp
  rw [h, lexGo_langle]
  congr 1

/-- The character list underlying a structurally built string. -/
theorem str_data_mk (l : List Char) : (String.mk l).data = l := rfl

/-- Scanning a closing key tag emits its token, flushing pending text. -/
theorem lex_close_key (acc X : List Char) :
    lexGo ("</key>".data ++ X) (.txt acc) =
      chunkToks acc ++ ([.tagClose "key".data] ++ lexGo X (.txt [])) := by
  have h : ("</key>".data ++ X) = '<' :: ("/key>".data ++ X) := rfl
  rw [h, lexGo_langle]
  congr 1

/-- Scanning an opening dict tag emits its token, flushing pending text. -/
theorem lex_open_dict (acc X : List Char) :
    lexGo ("<dict>".data ++ X) (.txt acc) =
      chunkToks acc ++ ([.tagOpen "dict".data] ++ lexGo X (.txt [])) := by
  have h : ("<dict>".data ++ X) = '<' :: ("dict>".data ++ X) := rfl
  rw [h, lexGo_langle]
  congr 1

/-- Scanning the issuerName key and data opener emits their tokens, flushing
pending text. -/
theorem lex_issuer_frag (acc X : List Char) :
    lexGo ("<key>issuerName</key><data>".data ++ X) (.txt acc) =
      chunkToks acc ++
        ([.tagOpen "key".data, .chunk "issuerName".data, .tagClose "key".data,
          .tagOpen "data".data] ++ lexGo X (.txt [])) := by
  have h : ("<key>issuerName</key><data>".data ++ X) =
      '<' :: ("key>issuerName</key><data>".data ++ X) := rfl
  rw [h, lexGo_langle]
  congr 1

/-- Scanning a closing data tag emits its token, flushing pending text. -/
theorem lex_close_data (acc X : List Char) :
    lexGo ("</data>".data ++ X) (.txt acc) =
      chunkToks acc ++ ([.tagClose "data".data] ++ lexGo X (.txt [])) := by
  have h : ("</data>".data ++ X) = '<' :: ("/data>".data ++ X) := rfl
  rw [h, lexGo_langle]
  congr 1

/-- Scanning the modDate key and date opener emits their tokens, flushing
pending text. -/
theorem lex_moddate_frag (acc X : List Char) :
    lexGo ("<key>modDate</key><date>".data ++ X) (.txt acc) =
      chunkToks acc ++
        ([.tagOpen "key".data, .chunk "modDate".data, .tagClose "key".data,
          .tagOpen "date".data] ++ lexGo X (.txt [])) := by
  have h : ("<key>modDate</key><date>".data ++ X) =
      '<' :: ("key>modDate</key><date>".data ++ X) := rfl
  rw [h, lexGo_langle]
  congr 1

/-- Scanning a closing date tag emits its token, flushing pending text. -/
theorem lex_close_date (acc X : List Char) :
    lexGo ("</date>".data ++ X) (.txt acc) =
      chunkToks acc ++ ([.tagClose "date".data] ++ lexGo X (.txt [])) := by
  have h : ("</date>".data ++ X) = '<' :: ("/date>".data ++ X) := rfl
  rw [h, lexGo_langle]
  congr 1

/-- Scanning the serialNumber key and data opener emits their tokens,
flushing pending text. -/
theorem lex_serial_frag (acc X : List Char) :
    lexGo ("<key>serialNumber</key><data>".data ++ X) (.txt acc) =
      chunkToks acc ++
        ([.tagOpen "key".data, .chunk "serialNumber".data, .tagClose "key".data,
          .tagOpen "data".data] ++ lexGo X (.txt [])) := by
  have h : ("<key>serialNumber</key><data>".data ++ X) =
      '<' :: ("key>serialNumber</key><data>".data ++ X) := rfl
  rw [h, lexGo_langle]
  congr 1

/-- Scanning a closing dict tag emits its token, flushing pending text. -/
theorem lex_close_dict (acc X : List Char) :
    lexGo ("</dict>".data ++ X) (.txt acc) =
      chunkToks acc ++ ([.tagClose "dict".data] ++ lexGo X (.txt [])) := by
  have h : ("</dict>".data ++ X) = '<' :: ("/dict>".data ++ X) := rfl
  rw [h, lexGo_langle]
  congr 1

/-- Scanning one serialized trust item produces its token run, provided its
four text fields contain no markup opener. -/
theorem lex_item (t : trustItem) (rest : List Char)
    (hfp : ∀ c ∈ (strToUpper t.sha1Fingerprint).data, ¬ c = '<')
    (hb1 : ∀ c ∈ base64Encode (asn1Marshal (ToRDNSequence t.issuerName)), ¬ c = '<')
    (hdt : ∀ c ∈ (formatPlistDate t.modDate).data, ¬ c = '<')
    (hb2 : ∀ c ∈ base64Encode t.serialNumber, ¬ c = '<') :
    lexGo ((trustItemXml t).data ++ rest) (.txt []) =
      itemToks t ++ lexGo rest (.txt []) := by
  simp only [trustItemXml, str_data_append, str_data_mk, List.append_assoc]
  rw [lex_key_open, lexGo_text _ [] _ hfp, lex_close_key, lex_open_dict,
      lex_issuer_frag, lexGo_text _ [] _ hb1, lex_close_data,
      lex_moddate_frag, lexGo_text _ [] _ hdt, lex_close_date,
      lex_serial_frag, lexGo_text _ [] _ hb2, lex_close_data, lex_close_dict]
  simp [itemToks, chunkToks, List.append_assoc]

/-- Folding string concatenation concatenates the character lists. -/
theorem str_foldl_data : ∀ (L : List String) (acc : String),
    (L.foldl (fun r s => r ++ s) acc).data = acc.data ++ (L.map String.data).flatten
  | [], acc => by simp
  | x :: xs, acc => by
    simp only [List.foldl_cons, str_foldl_data xs (acc ++ x), str_data_append,
      List.map_cons, List.flatten_cons, List.append_assoc]

/-- Joining strings concatenates the character lists. -/
theorem str_join_data (L : List String) :
    (String.join L).data = (L.map String.data).flatten := by
  have h := str_foldl_data L ""
  simpa [String.join] using h

/-- Scanning a run of serialized trust items produces the concatenation of
their token runs, provided every item's text fields contain no markup
opener. -/
theorem lex_items : ∀ (l : List trustItem) (X : List Char),
    (∀ t ∈ l,
      (∀ c ∈ (strToUpper t.sha1Fingerprint).data, ¬ c = '<') ∧
      (∀ c ∈ base64Encode (asn1Marshal (ToRDNSequence t.issuerName)), ¬ c = '<') ∧
      (∀ c ∈ (formatPlistDate t.modDate).data, ¬ c = '<') ∧
      (∀ c ∈ base64Encode t.serialNumber, ¬ c = '<')) →
    lexGo ((l.map (fun t => (trustItemXml t).data)).flatten ++ X) (.txt []) =
      (l.map itemToks).flatten ++ lexGo X (.txt [])
  | [], X, _ => by simp
  | t :: rest, X, h => by
    obtain ⟨h1, h2, h3, h4⟩ := h t (List.mem_cons_self _ _)
    simp only [List.map_cons, List.flatten_cons, List.append_assoc]
    rw [lex_item t _ h1 h2 h3 h4,
      lex_items rest X (fun u hu => h u (List.mem_cons_of_mem _ hu))]

/-- Scanning a whole serialized snapshot produces the header run, the item
runs in order, and the footer run. -/
theorem lex_doc (l : List trustItem)
    (h : ∀ t ∈ l,
      (∀ c ∈ (strToUpper t.sha1Fingerprint).data, ¬ c = '<') ∧
      (∀ c ∈ base64Encode (asn1Marshal (ToRDNSequence t.issuerName)), ¬ c = '<') ∧
      (∀ c ∈ (formatPlistDate t.modDate).data, ¬ c = '<') ∧
      (∀ c ∈ base64Encode t.serialNumber, ¬ c = '<')) :
    lexGo (toXmlFile l).data (.txt []) =
      headerToks ++ ((l.map itemToks).flatten ++ footerToks) := by
  have hd : (toXmlFile l).data =
      "<plist><dict><key>trustList</key><dict>".data ++
      ((l.map (fun t => (trustItemXml t).data)).flatten ++
       "</dict>\n  <key>trustVersion</key>\n  <integer>1</integer>\n</dict></plist>".data) := by
    simp [toXmlFile, xmlHeader, xmlFooter, str_data_append, str_join_data,
      List.map_map, Function.comp_def]
  rw [hd, lex_header, lex_items l _ h, lex_footer]
  simp [headerToks, footerToks, chunkToks]

/-- Decoding a possibly empty chunk inside a leaf element appends the text
to the accumulated chardata. -/
theorem decGo_chunkToks (s : List Char) (ts : List XTok) (nm acc : List Char)
    (st : List DecFrame) :
    decGo (chunkToks s ++ ts) (.leafF nm acc :: st) =
      decGo ts (.leafF nm (acc ++ s) :: st) := by
  by_cases h : s.isEmpty
  · have hs : s = [] := by simpa [List.isEmpty_iff] using h
    subst hs
    simp [chunkToks]
  · simp only [chunkToks, if_neg h, List.cons_append, List.nil_append]
    rfl

/-- Decoding an opening key tag inside a dict pushes a key leaf frame. -/
theorem decGo_open_key (ts : List XTok) (d : dictT) (st : List DecFrame) :
    decGo (.tagOpen "key".data :: ts) (.dictF "dict".data d :: st) =
      decGo ts (.leafF "key".data [] :: .dictF "dict".data d :: st) := rfl

/-- Decoding the run from the fingerprint key close to the issuer data open:
the key lands in the dict, a nested dict opens, its issuerName key lands,
and a data leaf frame opens. -/
theorem decGo_seg2 (ts : List XTok) (acc : List Char) (d : dictT)
    (st : List DecFrame) :
    decGo (.tagClose "key".data :: .tagOpen "dict".data :: .tagOpen "key".data ::
        .chunk "issuerName".data :: .tagClose "key".data :: .tagOpen "data".data :: ts)
      (.leafF "key".data acc :: .dictF "dict".data d :: st) =
      decGo ts (.leafF "data".data [] ::
        .dictF "dict".data
          (appendLeaf ((appendLeaf d "key".data (String.mk acc)).ChiDict.getD emptyDict)
            "key".data (String.mk "issuerName".data)) ::
        .dictF "dict".data (appendLeaf d "key".data (String.mk acc)) :: st) := rfl

/-- Decoding the run from the issuer data close to the date open: the data
lands in the nested dict, the modDate key lands, and a date leaf frame
opens. -/
theorem decGo_seg3 (ts : List XTok) (acc : List Char) (d : dictT)
    (st : List DecFrame) :
    decGo (.tagClose "data".data :: .tagOpen "key".data :: .chunk "modDate".data ::
        .tagClose "key".data :: .tagOpen "date".data :: ts)
      (.leafF "data".data acc :: .dictF "dict".data d :: st) =
      decGo ts (.leafF "date".data [] ::
        .dictF "dict".data
          (appendLeaf (appendLeaf d "data".data (String.mk acc)) "key".data
            (String.mk "modDate".data)) :: st) := rfl

/-- Decoding the run from the date close to the serial data open: the date
lands in the nested dict, the serialNumber key lands, and a data leaf frame
opens. -/
theorem decGo_seg4 (ts : List XTok) (acc : List Char) (d : dictT)
    (st : List DecFrame) :
    decGo (.tagClose "date".data :: .tagOpen "key".data :: .chunk "serialNumber".data ::
        .tagClose "key".data :: .tagOpen "data".data :: ts)
      (.leafF "date".data acc :: .dictF "dict".data d :: st) =
      decGo ts (.leafF "data".data [] ::
        .dictF "dict".data
          (appendLeaf (appendLeaf d "date".data (String.mk acc)) "key".data
            (String.mk "serialNumber".data)) :: st) := rfl

/-- Decoding the item closer: the serial data lands in the nested dict, which
then merges back into its parent's dict pointer. -/
theorem decGo_seg5 (ts : List XTok) (acc : List Char) (d2 d1 : dictT)
    (st : List DecFrame) :
    decGo (.tagClose "data".data :: .tagClose "dict".data :: ts)
      (.leafF "data".data acc :: .dictF "dict".data d2 ::
       .dictF "dict".data d1 :: st) =
      decGo ts (.dictF "dict".data
        (setChiDict d1 (some (appendLeaf d2 "data".data (String.mk acc)))) :: st) := rfl

/-- Decoding one serialized item's token run merges it into the second-level
dict. -/
theorem decGo_item (t : trustItem) (ts : List XTok) (d : dictT)
    (st : List DecFrame) :
    decGo (itemToks t ++ ts) (.dictF "dict".data d :: st) =
      decGo ts (.dictF "dict".data (itemOuterDict d t) :: st) := by
  simp only [itemToks, List.append_assoc, List.cons_append, List.nil_append]
  rw [decGo_open_key, decGo_chunkToks, decGo_seg2, decGo_chunkToks, decGo_seg3,
      decGo_chunkToks, decGo_seg4, decGo_chunkToks, decGo_seg5]
  obtain ⟨cda, cdt, cdict, cint, ckey⟩ := d
  rcases cdict with _ | ⟨a, b, c, e, f⟩ <;>
    simp [appendLeaf, setChiDict, itemOuterDict, itemInnerDict, emptyDict,
      dictT.ChiData, dictT.ChiDate, dictT.ChiDict, dictT.ChiInteger,
      dictT.ChiKey, Option.getD, List.append_assoc]

/-- Decoding the header token run builds the plist root, the outer dict with
its trustList key, and an open empty second-level dict. -/
theorem decGo_header (ts : List XTok) :
    decGo (headerToks ++ ts) [] =
      decGo ts [.dictF "dict".data emptyDict,
                .dictF "dict".data (.mk [] [] none [] ["trustList"]),
                .plistF "plist".data none] := by
  simp only [headerToks, List.cons_append, List.nil_append]
  rfl

/-- Decoding a run of serialized items merges them all into the second-level
dict. -/
theorem decGo_items : ∀ (l : List trustItem) (ts : List XTok) (d : dictT)
    (st : List DecFrame),
    decGo ((l.map itemToks).flatten ++ ts) (.dictF "dict".data d :: st) =
      decGo ts (.dictF "dict".data (mergeOuter d l) :: st)
  | [], ts, d, st => by simp [mergeOuter]
  | t :: rest, ts, d, st => by
    simp only [List.map_cons, List.flatten_cons, List.append_assoc]
    rw [decGo_item, decGo_items rest ts (itemOuterDict d t) st]
    rfl

/-- Decoding the footer token run closes the second-level dict into the
outer dict, appends the trustVersion key and integer, and closes the
document. -/
theorem decGo_footer (dTL d1 : dictT) (cur : Option dictT) :
    decGo footerToks
      [.dictF "dict".data dTL, .dictF "dict".data d1, .plistF "plist".data cur] =
      .ok ⟨some (appendLeaf
        (appendLeaf (setChiDict d1 (some dTL)) "key".data
          (String.mk "trustVersion".data))
        "integer".data (String.mk "1".data))⟩ := by
  simp only [footerToks]
  rfl

/-- Parsing a serialized snapshot succeeds and yields the plist struct whose
outer dict holds the trustList and trustVersion keys, the true integer, and
the merged second-level dict, provided every item's text fields contain no
markup opener. -/
theorem parsePlist_toXml (l : List trustItem)
    (h : ∀ t ∈ l,
      (∀ c ∈ (strToUpper t.sha1Fingerprint).data, ¬ c = '<') ∧
      (∀ c ∈ base64Encode (asn1Marshal (ToRDNSequence t.issuerName)), ¬ c = '<') ∧
      (∀ c ∈ (formatPlistDate t.modDate).data, ¬ c = '<') ∧
      (∀ c ∈ base64Encode t.serialNumber, ¬ c = '<')) :
    parsePlist (toXmlFile l) =
      .ok ⟨some (.mk [] [] (some (mergeOuter emptyDict l)) [true]
        ["trustList", "trustVersion"])⟩ := by
  unfold parsePlist
  rw [lex_doc l h, decGo_header, decGo_items, decGo_footer]
  rfl

/-- A lowercase-hex character round-trips through uppercasing and is mapped
to a non-markup character. -/
theorem lowerHex_cases (c : Char) (h : isLowerHex c = true) :
    asciiLowerChar (asciiUpperChar c) = c ∧ ¬ asciiUpperChar c = '<' := by
  simp only [isLowerHex, Bool.or_eq_true, Bool.and_eq_true, decide_eq_true_eq] at h
  have h3 := Char.ofNat_toNat c
  rcases h with ⟨h1, h2⟩ | ⟨h1, h2⟩ <;> interval_cases hn : c.toNat <;>
    rw [← h3] <;> exact (by decide)

/-- Digit characters are not markup. -/
theorem digitChar_ne_lt : ∀ d : Nat, ¬ digitChar d = '<'
  | 0 => by decide
  | 1 => by decide
  | 2 => by decide
  | 3 => by decide
  | 4 => by decide
  | 5 => by decide
  | 6 => by decide
  | 7 => by decide
  | 8 => by decide
  | n + 9 => by
    rw [show digitChar (n + 9) = '9' from rfl]
    decide

/-- No character of a formatted date is markup. -/
theorem formatDate_not_lt (t : DateTime) :
    ∀ c ∈ (formatPlistDate t).data, ¬ c = '<' := by
  obtain ⟨y, mo, d, h, mi, s⟩ := t
  intro c hc
  simp only [formatPlistDate, pad4, pad2, str_data_mk, List.cons_append,
    List.nil_append, List.mem_cons, List.not_mem_nil, or_false] at hc
  rcases hc with rfl | rfl | rfl | rfl | rfl | rfl | rfl | rfl | rfl | rfl |
    rfl | rfl | rfl | rfl | rfl | rfl | rfl | rfl | rfl | rfl <;>
    first
    | exact digitChar_ne_lt _
    | decide

/-- Members of a multi-valued piece are the mapped value set. -/
theorem mem_rdnPiece (rdn : List AttributeTypeAndValue) (vals : List String)
    (oid : List Nat) (h : rdn ∈ rdnPiece vals oid) :
    rdn = vals.map (fun v => ⟨oid, v⟩) := by
  unfold rdnPiece at h
  split at h
  · exact absurd h (List.not_mem_nil _)
  · simpa using h

/-- Members of a single-valued piece are the singleton attribute set. -/
theorem mem_singlePiece (rdn : List AttributeTypeAndValue) (s : String)
    (oid : List Nat) (h : rdn ∈ singlePiece s oid) : rdn = [⟨oid, s⟩] := by
  unfold singlePiece at h
  split at h
  · simpa using h
  · exact absurd h (List.not_mem_nil _)

/-- Every attribute of the sequence form of a name with empty ExtraNames
carries a standard 2.5.4.x identifier. -/
theorem toRDN_oids (n : PkixName) (hE : n.ExtraNames = []) :
    ∀ rdn ∈ ToRDNSequence n, ∀ atv ∈ rdn, ∃ k, k < 128 ∧ atv.Typ = [2, 5, 4, k] := by
  intro rdn hr atv ha
  rw [toRDN_normal n hE] at hr
  simp only [List.mem_append] at hr
  rcases hr with ((((((((hr | hr) | hr) | hr) | hr) | hr) | hr) | hr) | hr) <;>
    first
    | (obtain rfl := mem_rdnPiece _ _ _ hr
       rw [List.mem_map] at ha
       obtain ⟨v, hv, rfl⟩ := ha
       refine ⟨_, ?_, rfl⟩
       decide)
    | (obtain rfl := mem_singlePiece _ _ _ hr
       rw [List.mem_singleton] at ha
       subst ha
       refine ⟨_, ?_, rfl⟩
       decide)

/-- Attribute values of a well-formed name are ASCII. -/
theorem wf_ascii (n : PkixName) (hwf : wellFormedName n = true) :
    ∀ rdn ∈ ToRDNSequence n, ∀ atv ∈ rdn, ∀ c ∈ atv.Value.data, c.toNat < 128 := by
  simp only [wellFormedName, Bool.and_eq_true, List.all_eq_true,
    decide_eq_true_eq] at hwf
  exact fun rdn hr atv ha c hc => hwf.2 rdn hr atv ha c hc

/-- A well-formed name has no ExtraNames. -/
theorem wf_extra_nil (n : PkixName) (hwf : wellFormedName n = true) :
    n.ExtraNames = [] := by
  simp only [wellFormedName, Bool.and_eq_true] at hwf
  simpa [List.isEmpty_iff] using hwf.1.1

/-- Lowercasing inverts uppercasing on lowercase-hex strings. -/
theorem strLower_strUpper (s : String) (h : ∀ c ∈ s.data, isLowerHex c = true) :
    strToLower (strToUpper s) = s := by
  cases s with
  | mk L =>
    simp only [strToUpper, strToLower, str_data_mk, List.map_map]
    congr 1
    have hcg : ∀ c ∈ L, (asciiLowerChar ∘ asciiUpperChar) c = id c := fun c hc =>
      (lowerHex_cases c (h c hc)).1
    rw [List.map_congr_left hcg, List.map_id]

/-- The component facts of a well-formed trust record. -/
theorem wf_parts (t : trustItem) (hw : wellFormedItem t = true) :
    (∀ c ∈ t.sha1Fingerprint.data, isLowerHex c = true) ∧
    wellFormedName t.issuerName = true ∧
    (∀ b ∈ asn1Marshal (ToRDNSequence t.issuerName), b < 256) ∧
    1 ≤ t.modDate.year ∧ t.modDate.year ≤ 9999 ∧
    1 ≤ t.modDate.month ∧ t.modDate.month ≤ 12 ∧
    1 ≤ t.modDate.day ∧ t.modDate.day ≤ daysInMonth t.modDate.year t.modDate.month ∧
    t.modDate.hour ≤ 23 ∧ t.modDate.minute ≤ 59 ∧ t.modDate.second ≤ 59 ∧
    (∀ b ∈ t.serialNumber, b < 256) := by
  simp only [wellFormedItem, Bool.and_eq_true, and_assoc, List.all_eq_true,
    decide_eq_true_eq] at hw
  tauto

/-- No text field of a well-formed record contains a markup opener. -/
theorem wf_safety (t : trustItem) (hw : wellFormedItem t = true) :
    (∀ c ∈ (strToUpper t.sha1Fingerprint).data, ¬ c = '<') ∧
    (∀ c ∈ base64Encode (asn1Marshal (ToRDNSequence t.issuerName)), ¬ c = '<') ∧
    (∀ c ∈ (formatPlistDate t.modDate).data, ¬ c = '<') ∧
    (∀ c ∈ base64Encode t.serialNumber, ¬ c = '<') := by
  obtain ⟨hfp, hname, hbytes, _, _, _, _, _, _, _, _, _, hser⟩ := wf_parts t hw
  refine ⟨?_, ?_, formatDate_not_lt _, ?_⟩
  · intro c hc
    simp only [strToUpper, str_data_mk, List.mem_map] at hc
    obtain ⟨c0, hc0, rfl⟩ := hc
    exact (lowerHex_cases c0 (hfp c0 hc0)).2
  · intro c hc
    exact b64Alphabet_not_lt c (base64Encode_alphabet _ hbytes c hc)
  · intro c hc
    exact b64Alphabet_not_lt c (base64Encode_alphabet _ hser c hc)

/-- The key slice of the merged second-level dict lists the uppercased
fingerprints in order. -/
theorem mergeOuter_key : ∀ (l : List trustItem) (d : dictT),
    (mergeOuter d l).ChiKey = d.ChiKey ++ l.map (fun t => strToUpper t.sha1Fingerprint)
  | [], d => by simp [mergeOuter]
  | t :: rest, d => by
    rw [show mergeOuter d (t :: rest) = mergeOuter (itemOuterDict d t) rest from rfl,
      mergeOuter_key rest (itemOuterDict d t)]
    simp [itemOuterDict, dictT.ChiKey, List.append_assoc]

/-- The nested dict of the merged second-level dict is the merged
third-level dict, for at least one item. -/
theorem mergeOuter_dict : ∀ (l : List trustItem) (d : dictT), l ≠ [] →
    (mergeOuter d l).ChiDict = some (mergeItems (d.ChiDict.getD emptyDict) l)
  | [], _, h => absurd rfl h
  | [t], d, _ => by
    simp [mergeOuter, mergeItems, itemOuterDict, dictT.ChiDict]
  | t :: u :: us, d, _ => by
    rw [show mergeOuter d (t :: u :: us) = mergeOuter (itemOuterDict d t) (u :: us)
        from rfl,
      mergeOuter_dict (u :: us) (itemOuterDict d t) (by simp)]
    congr 1

/-- The data slice of the merged third-level dict is the issuer/serial pair
run in order. -/
theorem mergeItems_data : ∀ (l : List trustItem) (d : dictT),
    (mergeItems d l).ChiData = d.ChiData ++ (l.map (fun t =>
      [(⟨base64Encode (asn1Marshal (ToRDNSequence t.issuerName))⟩ : String),
       (⟨base64Encode t.serialNumber⟩ : String)])).flatten
  | [], d => by simp [mergeItems]
  | t :: rest, d => by
    rw [show mergeItems d (t :: rest) = mergeItems (itemInnerDict d t) rest from rfl,
      mergeItems_data rest _]
    simp [itemInnerDict, dictT.ChiData, List.append_assoc]

/-- The date slice of the merged third-level dict is the formatted date run
in order. -/
theorem mergeItems_date : ∀ (l : List trustItem) (d : dictT),
    (mergeItems d l).ChiDate = d.ChiDate ++ l.map (fun t => formatPlistDate t.modDate)
  | [], d => by simp [mergeItems]
  | t :: rest, d => by
    rw [show mergeItems d (t :: rest) = mergeItems (itemInnerDict d t) rest from rfl,
      mergeItems_date rest _]
    simp [itemInnerDict, dictT.ChiDate, List.append_assoc]

/-- A flattened run of two-element blocks has twice the length. -/
theorem pairFlat_length {α β : Type} (f g : α → β) : ∀ (l : List α),
    ((l.map (fun t => [f t, g t])).flatten).length = 2 * l.length
  | [] => rfl
  | t :: rest => by
    simp only [List.map_cons, List.flatten_cons, List.length_append,
      List.length_cons, List.length_nil, pairFlat_length f g rest]
    omega

/-- Indexing a flattened run of two-element blocks: even positions read the
first component, odd positions the second. -/
theorem get?_pairFlat {α β : Type} (f g : α → β) : ∀ (l : List α) (k : Nat),
    ((l.map (fun t => [f t, g t])).flatten.get? (2 * k) = (l.get? k).map f) ∧
    ((l.map (fun t => [f t, g t])).flatten.get? (2 * k + 1) = (l.get? k).map g)
  | [], k => by simp
  | t :: rest, 0 => by simp
  | t :: rest, k + 1 => by
    have ih := get?_pairFlat f g rest k
    have h2 : 2 * (k + 1) = 2 * k + 1 + 1 := by omega
    simp only [List.map_cons, List.flatten_cons, List.cons_append, h2,
      List.get?_cons_succ, List.nil_append, List.get?]
    exact ih

/-- Running the conversion loop over the merged dict slices of a run of
well-formed records recovers the records, with the trust-disposition code
reset to zero. -/
theorem convertLoop_run (l : List trustItem) (d2 d3 : dictT)
    (hkey : d2.ChiKey = l.map (fun t => strToUpper t.sha1Fingerprint))
    (hdata : d3.ChiData = (l.map (fun t =>
      [(⟨base64Encode (asn1Marshal (ToRDNSequence t.issuerName))⟩ : String),
       (⟨base64Encode t.serialNumber⟩ : String)])).flatten)
    (hdate : d3.ChiDate = l.map (fun t => formatPlistDate t.modDate))
    (hwf : ∀ t ∈ l, wellFormedItem t = true) :
    ∀ (fuel k : Nat) (acc : List trustItem), k ≤ l.length → l.length - k < fuel →
    convertLoop d2 d3 (2 * l.length) fuel (2 * k) acc =
      .ok (acc ++ (l.drop k).map (fun it => { it with kSecTrustSettingsResult := 0 }))
  | 0, _, _, _, hf => absurd hf (by omega)
  | fuel + 1, k, acc, hk, hf => by
    by_cases hkl : k < l.length
    · have hlt : 2 * k < 2 * l.length := by omega
      obtain ⟨t, ht⟩ : ∃ t, l.get? k = some t := ⟨_, List.get?_eq_get hkl⟩
      have htmem : t ∈ l := List.get?_mem ht
      obtain ⟨hfp, hname, hbytes, hy1, hy2, hm1, hm2, hd1, hd2, hh, hmi, hs, hser⟩ :=
        wf_parts t (hwf t htmem)
      have hk2 : 2 * k / 2 = k := by omega
      have e1 : d2.ChiKey.get? (2 * k / 2) = some (strToUpper t.sha1Fingerprint) := by
        rw [hk2, hkey, List.get?_map, ht]
        rfl
      have epair := get?_pairFlat
        (fun t : trustItem =>
          (⟨base64Encode (asn1Marshal (ToRDNSequence t.issuerName))⟩ : String))
        (fun t : trustItem => (⟨base64Encode t.serialNumber⟩ : String)) l k
      have e2 : d3.ChiData.get? (2 * k) =
          some ⟨base64Encode (asn1Marshal (ToRDNSequence t.issuerName))⟩ := by
        rw [hdata, epair.1, ht]
        rfl
      have e3 : d3.ChiData.get? (2 * k + 1) = some ⟨base64Encode t.serialNumber⟩ := by
        rw [hdata, epair.2, ht]
        rfl
      have e4 : d3.ChiDate.get? (2 * k / 2) = some (formatPlistDate t.modDate) := by
        rw [hk2, hdate, List.get?_map, ht]
        rfl
      have hstrip1 : stripForBase64
          (base64Encode (asn1Marshal (ToRDNSequence t.issuerName))) =
          base64Encode (asn1Marshal (ToRDNSequence t.issuerName)) :=
        strip_of_alphabet _ (base64Encode_alphabet _ hbytes)
      have hstrip2 : stripForBase64 (base64Encode t.serialNumber) =
          base64Encode t.serialNumber :=
        strip_of_alphabet _ (base64Encode_alphabet _ hser)
      have hdec1 := base64_roundtrip _ hbytes
      have hdec2 := base64_roundtrip _ hser
      have hasn : asn1Unmarshal (asn1Marshal (ToRDNSequence t.issuerName)) =
          some (ToRDNSequence t.issuerName) :=
        asn1_roundtrip _ (toRDN_oids _ (wf_extra_nil _ hname)) (wf_ascii _ hname)
      have hfill := fillFrom_toRDN _ hname
      have hdt : parsePlistDate (formatPlistDate t.modDate) = some t.modDate :=
        parse_format_date _ hm1 hm2 hd1 hd2 hh hmi hs hy2
      have hlow := strLower_strUpper _ hfp
      simp only [convertLoop, if_pos hlt, e1, e2, e3, e4, str_data_mk, hstrip1,
        hstrip2, hdec1, hdec2, hasn, hfill, hdt, hlow]
      have hstep : 2 * k + 2 = 2 * (k + 1) := by omega
      rw [hstep,
        convertLoop_run l d2 d3 hkey hdata hdate hwf fuel (k + 1) _ (by omega) (by omega)]
      have hg : l.get ⟨k, hkl⟩ = t := by
        have h0 := List.get?_eq_get hkl
        rw [ht] at h0
        exact (Option.some.inj h0).symm
      have hdrop : l.drop k = t :: l.drop (k + 1) := by
        rw [List.drop_eq_get_cons hkl, hg]
      rw [hdrop]
      simp [List.append_assoc]
    · have hk0 : k = l.length := by omega
      subst hk0
      have hnlt : ¬ 2 * l.length < 2 * l.length := by omega
      simp [convertLoop, hnlt, List.drop_length]

/-- C1 (amended: at least one record): for every trust-policy snapshot
consisting of at least one well-formed record, parsing the bytes produced
by serializing it (parsePlist and convertToTrustItems applied to the
output of toXmlFile) yields a snapshot with the same records: equal
fingerprints, issuer names, serial-number bytes, and modification times at
second granularity; only the never-serialized trust-disposition code is
reset to zero.  The empty snapshot instead crashes on a nil dict pointer,
which is why the claim is corrected to require at least one record. -/
theorem parse_serialize_roundtrip (l : List trustItem) (hne : l ≠ [])
    (hwf : ∀ t ∈ l, wellFormedItem t = true) :
    ParseSnapshot (toXmlFile l) =
      .ok (l.map fun it => { it with kSecTrustSettingsResult := 0 }) := by
  have hsafe : ∀ t ∈ l,
      (∀ c ∈ (strToUpper t.sha1Fingerprint).data, ¬ c = '<') ∧
      (∀ c ∈ base64Encode (asn1Marshal (ToRDNSequence t.issuerName)), ¬ c = '<') ∧
      (∀ c ∈ (formatPlistDate t.modDate).data, ¬ c = '<') ∧
      (∀ c ∈ base64Encode t.serialNumber, ¬ c = '<') :=
    fun t ht => wf_safety t (hwf t ht)
  unfold ParseSnapshot
  rw [parsePlist_toXml l hsafe]
  have hMdict : (mergeOuter emptyDict l).ChiDict = some (mergeItems emptyDict l) := by
    rw [mergeOuter_dict l emptyDict hne]
    rfl
  have hkey : (mergeOuter emptyDict l).ChiKey =
      l.map (fun t => strToUpper t.sha1Fingerprint) := by
    rw [mergeOuter_key]
    rfl
  have hdata : (mergeItems emptyDict l).ChiData = (l.map (fun t =>
      [(⟨base64Encode (asn1Marshal (ToRDNSequence t.issuerName))⟩ : String),
       (⟨base64Encode t.serialNumber⟩ : String)])).flatten := by
    rw [mergeItems_data]
    rfl
  have hdate : (mergeItems emptyDict l).ChiDate =
      l.map (fun t => formatPlistDate t.modDate) := by
    rw [mergeItems_date]
    rfl
  have hlen : (mergeItems emptyDict l).ChiData.length = 2 * l.length := by
    rw [hdata]
    exact pairFlat_length _ _ l
  have hcu : convertToTrustItems
      ⟨some (.mk [] [] (some (mergeOuter emptyDict l)) [true]
        ["trustList", "trustVersion"])⟩ =
      (match (mergeOuter emptyDict l).ChiDict with
       | none => Outcome.crash
       | some d3 =>
         convertLoop (mergeOuter emptyDict l) d3 d3.ChiData.length
           (d3.ChiData.length + 1) 0 []) := rfl
  show convertToTrustItems
      ⟨some (.mk [] [] (some (mergeOuter emptyDict l)) [true]
        ["trustList", "trustVersion"])⟩ = _
  rw [hcu, hMdict]
  show convertLoop (mergeOuter emptyDict l) (mergeItems emptyDict l)
    ((mergeItems emptyDict l).ChiData.length)
    ((mergeItems emptyDict l).ChiData.length + 1) 0 [] = _
  rw [hlen]
  have hrun := convertLoop_run l (mergeOuter emptyDict l) (mergeItems emptyDict l)
    hkey hdata hdate hwf (2 * l.length + 1) 0 [] (by omega) (by omega)
  simpa using hrun

/-- Witness: the round-trip theorem applied to a concrete one-record
snapshot. -/
theorem parse_serialize_roundtrip_witness :
    ParseSnapshot (toXmlFile [sampleItem]) =
      .ok ([sampleItem].map fun it => { it with kSecTrustSettingsResult := 0 }) :=
  parse_serialize_roundtrip [sampleItem] (by decide) (by decide)
